import Mathlib

/-!
Shallow embedding of the `sat` repository: the CNF data model, the DPLL
search loop with theory callbacks (`src/dpll.rs`), asymmetric tautology
elimination, the DIMACS parser (`src/dimacs.rs`) and the EUF theory
(`src/smt/euf.rs`).  Rust vectors become Lean lists, `BTreeSet`s of pairs
become lists of pairs (iteration order is unobservable through the
functions verified here), and fallible or panicking operations return
`Option`/dedicated result types.  Machine-width integer overflow is not
modelled; integers are unbounded.
-/

set_option maxHeartbeats 1000000

namespace SatSpec

/-- A literal is a signed nonzero integer: the magnitude is the atom id and
the sign the polarity (`Literal` in `src/cnf.rs`; `Literal::new` rejects 0). -/
def Literal : Type := { z : Int // z ≠ 0 }

instance : DecidableEq Literal := by unfold Literal; infer_instance

namespace Literal

/-- Construct a literal from a nonzero integer (`Literal::new`). -/
def mk (z : Int) (h : z ≠ 0) : Literal := ⟨z, h⟩

/-- `Literal::is_negated`. -/
def is_negated (l : Literal) : Bool := l.val < 0

/-- `Literal::negate`: flip the sign. -/
def negate (l : Literal) : Literal := ⟨-l.val, neg_ne_zero.mpr l.prop⟩

/-- `Literal::get_id`: the absolute value of the atom. -/
def get_id (l : Literal) : Nat := l.val.natAbs

@[simp] theorem negate_negate (l : Literal) : l.negate.negate = l := by
  simp [negate]

@[simp] theorem get_id_negate (l : Literal) : l.negate.get_id = l.get_id := by
  simp [negate, get_id]

theorem negate_ne (l : Literal) : l.negate ≠ l := by
  intro h
  have hv : -l.val = l.val := congrArg Subtype.val h
  have : l.val = 0 := by omega
  exact l.prop this

theorem get_id_pos (l : Literal) : 1 ≤ l.get_id := by
  have h : l.val.natAbs ≠ 0 := Int.natAbs_ne_zero.mpr l.prop
  unfold get_id
  omega

theorem eq_or_negate_of_get_id_eq {a b : Literal} (h : a.get_id = b.get_id) :
    a = b ∨ a = b.negate := by
  unfold get_id at h
  rcases Int.natAbs_eq_natAbs_iff.mp h with h' | h'
  · left; exact Subtype.ext h'
  · right; exact Subtype.ext (by simpa [Literal.negate] using h')

end Literal

/-- Provenance tags on trail entries (`Provenance` in `src/dpll.rs`). -/
inductive Provenance : Type
  | UnitPropagation
  | TheoryPropagation
  | Decision
  | Backjump
deriving DecidableEq, Repr

/-- A clause is an ordered multiset of literals (`Clause` in `src/cnf.rs`). -/
abbrev Clause : Type := List Literal

/-- A formula is an ordered sequence of clauses (`Formula` in `src/cnf.rs`). -/
abbrev Formula : Type := List Clause

/-- A model (trail) is an ordered sequence of literal/provenance pairs
(`Model` in `src/dpll.rs`). -/
abbrev Model : Type := List (Literal × Provenance)

namespace Model

/-- `Model::contains`: linear scan by literal equality. -/
def contains (m : Model) (lit : Literal) : Bool :=
  m.any (fun e => e.1 = lit)

/-- `Model::append`: push an entry at the tail. -/
def append (m : Model) (lit : Literal) (p : Provenance) : Model :=
  m ++ [(lit, p)]

/-- `Model::get_assignments`: project out the literals in order. -/
def get_assignments (m : Model) : List Literal :=
  m.map Prod.fst

theorem contains_iff (m : Model) (lit : Literal) :
    m.contains lit = true ↔ ∃ p, (lit, p) ∈ m := by
  unfold contains
  simp only [List.any_eq_true, decide_eq_true_eq]
  constructor
  · rintro ⟨⟨l, p⟩, hmem, h⟩
    simp only at h
    exact ⟨p, h ▸ hmem⟩
  · rintro ⟨p, hmem⟩
    exact ⟨(lit, p), hmem, rfl⟩

end Model

/-- `Literal::is_true_in` from `src/dpll.rs`: `some true` if the literal is
in the model, `some false` if its negation is, `none` otherwise. -/
def Literal.is_true_in (l : Literal) (m : Model) : Option Bool :=
  if m.contains l then some true
  else if m.contains l.negate then some false
  else none

/-- The worker loop of `Clause::is_true_in`: scan the literals carrying the
`all_false` flag. -/
def Clause.is_true_in_go (m : Model) : List Literal → Bool → Option Bool
  | [], allFalse => if allFalse then some false else none
  | l :: ls, allFalse =>
    match l.is_true_in m with
    | some true => some true
    | some false => Clause.is_true_in_go m ls allFalse
    | none => Clause.is_true_in_go m ls false

/-- `Clause::is_true_in` from `src/dpll.rs`. -/
def Clause.is_true_in (c : Clause) (m : Model) : Option Bool :=
  Clause.is_true_in_go m c true

/-- `Formula::is_true_in` from `src/dpll.rs`. -/
def Formula.is_true_in (f : Formula) (m : Model) : Option Bool :=
  match f with
  | [] => some true
  | c :: cs =>
    match Clause.is_true_in c m with
    | some true => Formula.is_true_in cs m
    | some false => some false
    | none => none

theorem Clause.is_true_in_go_true_iff (m : Model) (ls : List Literal) (af : Bool) :
    Clause.is_true_in_go m ls af = some true ↔
      ∃ l ∈ ls, l.is_true_in m = some true := by
  induction ls generalizing af with
  | nil => cases af <;> simp [Clause.is_true_in_go]
  | cons l ls ih =>
    simp only [Clause.is_true_in_go]
    cases h : l.is_true_in m with
    | none =>
      rw [ih]
      constructor
      · rintro ⟨x, hx, hxt⟩; exact ⟨x, List.mem_cons_of_mem _ hx, hxt⟩
      · rintro ⟨x, hx, hxt⟩
        rcases List.mem_cons.mp hx with hx | hx
        · rw [hx] at hxt; rw [hxt] at h; cases h
        · exact ⟨x, hx, hxt⟩
    | some b =>
      cases b with
      | true =>
        constructor
        · intro; exact ⟨l, List.mem_cons_self _ _, h⟩
        · intro; rfl
      | false =>
        rw [ih]
        constructor
        · rintro ⟨x, hx, hxt⟩; exact ⟨x, List.mem_cons_of_mem _ hx, hxt⟩
        · rintro ⟨x, hx, hxt⟩
          rcases List.mem_cons.mp hx with hx | hx
          · rw [hx] at hxt; rw [hxt] at h; cases h
          · exact ⟨x, hx, hxt⟩

theorem clause_is_true_in_true_iff (c : Clause) (m : Model) :
    c.is_true_in m = some true ↔ ∃ l ∈ c, l.is_true_in m = some true := by
  exact Clause.is_true_in_go_true_iff m c true

theorem literal_is_true_in_true_iff (l : Literal) (m : Model) :
    l.is_true_in m = some true ↔ m.contains l = true := by
  unfold Literal.is_true_in
  by_cases h : m.contains l = true
  · simp [h]
  · by_cases h2 : m.contains l.negate = true <;> simp [h, h2]

theorem formula_is_true_in_true_iff (f : Formula) (m : Model) :
    f.is_true_in m = some true ↔ ∀ c ∈ f, Clause.is_true_in c m = some true := by
  induction f with
  | nil => simp [Formula.is_true_in]
  | cons c cs ih =>
    simp only [Formula.is_true_in]
    cases h : Clause.is_true_in c m with
    | none =>
      constructor
      · intro hfalse; cases hfalse
      · intro hall
        rw [hall c (List.mem_cons_self _ _)] at h
        cases h
    | some b =>
      cases b with
      | true =>
        rw [ih]
        constructor
        · intro hall x hx
          rcases List.mem_cons.mp hx with hx | hx
          · rw [hx]; exact h
          · exact hall x hx
        · intro hall x hx; exact hall x (List.mem_cons_of_mem _ hx)
      | false =>
        constructor
        · intro hfalse; cases hfalse
        · intro hall
          rw [hall c (List.mem_cons_self _ _)] at h
          cases h

/-! ### The DPLL search loop (`src/dpll.rs`)

The Rust `Theory` trait becomes a record of pure functions over an explicit
state type `σ`; `&mut self` methods become state transformers. -/

/-- The `Theory` trait of `src/smt.rs` / `src/theory.rs`. -/
structure TheoryImpl (σ : Type) where
  decide : σ → Literal → Option Bool
  incorporate : σ → Literal → σ
  forget : σ → σ

/-- The empty theory (`src/theory/empty.rs`). -/
def EmptyTheory : TheoryImpl Unit where
  decide := fun _ _ => none
  incorporate := fun s _ => s
  forget := fun s => s

/-- `do_backjump`: pop entries from the tail until (and including) the most
recent `Decision` entry, then append that literal's negation with
provenance `Backjump`.  Returns `none` when no decision exists. -/
def do_backjump (m : Model) : Option Model :=
  go m.reverse
where
  go : List (Literal × Provenance) → Option Model
    | [] => none
    | (lit, prov) :: rest =>
      if prov = Provenance.Decision then
        some (Model.append rest.reverse lit.negate Provenance.Backjump)
      else
        go rest

/-- The inner literal scan of `do_unit_propagation`: find the first
unassigned literal whose removal (of all copies) leaves a false clause. -/
def unit_scan (m : Model) (lits : Clause) : List Literal → Option Literal
  | [] => none
  | lit :: rest =>
    if lit.is_true_in m = none ∧
        Clause.is_true_in (lits.filter (fun l => l ≠ lit)) m = some false then
      some lit
    else
      unit_scan m lits rest

/-- `do_unit_propagation` from `src/dpll.rs`. -/
def do_unit_propagation (m : Model) : Formula → Option Literal
  | [] => none
  | clause :: rest =>
    if Clause.is_true_in clause m = none then
      match unit_scan m clause clause with
      | some lit => some lit
      | none => do_unit_propagation m rest
    else
      do_unit_propagation m rest

/-- The inner literal scan of `do_theory_propagation`. -/
def theory_scan {σ : Type} (T : TheoryImpl σ) (s : σ) (m : Model) :
    List Literal → Option Literal
  | [] => none
  | lit :: rest =>
    if lit.is_true_in m = none then
      match T.decide s lit with
      | some true => some lit
      | some false => some lit.negate
      | none => theory_scan T s m rest
    else
      theory_scan T s m rest

/-- `do_theory_propagation` from `src/dpll.rs`: note that it scans every
clause, with no check of the clause's truth in the model. -/
def do_theory_propagation {σ : Type} (T : TheoryImpl σ) (s : σ) (m : Model) :
    Formula → Option Literal
  | [] => none
  | clause :: rest =>
    match theory_scan T s m clause with
    | some lit => some lit
    | none => do_theory_propagation T s m rest

/-- The inner literal scan of `do_decision`. -/
def decision_scan (m : Model) : List Literal → Option Literal
  | [] => none
  | lit :: rest =>
    if lit.is_true_in m = none then
      some ⟨(lit.get_id : Int), by
        have := lit.get_id_pos
        simp only [ne_eq, Nat.cast_eq_zero]
        omega⟩
    else
      decision_scan m rest

/-- `do_decision` from `src/dpll.rs`: first unknown clause, first unassigned
literal, made positive. -/
def do_decision (m : Model) : Formula → Option Literal
  | [] => none
  | clause :: rest =>
    if Clause.is_true_in clause m = none then
      match decision_scan m clause with
      | some lit => some lit
      | none => do_decision m rest
    else
      do_decision m rest

/-- `reset_theory`: forget, then re-incorporate every trail literal in order. -/
def reset_theory {σ : Type} (T : TheoryImpl σ) (s : σ) (m : Model) : σ :=
  m.foldl (fun acc e => T.incorporate acc e.1) (T.forget s)

/-- One iteration of the `dpll` main loop. -/
inductive StepResult (σ : Type) : Type
  | sat (m : Model)
  | unsat
  | fatal
  | cont (s : σ) (m : Model)

/-- One iteration of the `loop` in `dpll` (`src/dpll.rs`): evaluate the
formula, then terminate, backjump, or extend the trail by theory
propagation, unit propagation or decision (in that priority).  `fatal`
models the `panic!` when nothing applies in an unknown state. -/
def dpll_step {σ : Type} (T : TheoryImpl σ) (formula : Formula) (s : σ)
    (m : Model) : StepResult σ :=
  match Formula.is_true_in formula m with
  | some true => StepResult.sat m
  | some false =>
    match do_backjump m with
    | some m' => StepResult.cont (reset_theory T s m') m'
    | none => StepResult.unsat
  | none =>
    match do_theory_propagation T s m formula with
    | some lit => StepResult.cont (T.incorporate s lit) (Model.append m lit Provenance.TheoryPropagation)
    | none =>
      match do_unit_propagation m formula with
      | some lit => StepResult.cont (T.incorporate s lit) (Model.append m lit Provenance.UnitPropagation)
      | none =>
        match do_decision m formula with
        | some lit => StepResult.cont (T.incorporate s lit) (Model.append m lit Provenance.Decision)
        | none => StepResult.fatal

/-- Outcome of a fuel-bounded run of the `dpll` loop. -/
inductive DpllResult : Type
  | sat (m : Model)
  | unsat
  | fatal
  | outOfFuel
deriving DecidableEq

/-- The `dpll` main loop, iterated under explicit fuel. -/
def dpll_loop {σ : Type} (T : TheoryImpl σ) (formula : Formula) :
    Nat → σ → Model → DpllResult
  | 0, _, _ => DpllResult.outOfFuel
  | fuel + 1, s, m =>
    match dpll_step T formula s m with
    | StepResult.sat m' => DpllResult.sat m'
    | StepResult.unsat => DpllResult.unsat
    | StepResult.fatal => DpllResult.fatal
    | StepResult.cont s' m' => dpll_loop T formula fuel s' m'

/-! ### Asymmetric tautology elimination (`src/dpll.rs`) -/

/-- The inner literal scan of the `'ala` loop for one candidate clause
`elits`: find the first literal `el` such that `¬el ∉ S` and the set of the
clause's other literals is contained in `S`.  The returned Bool is whether
`el ∈ S` (delete) as opposed to pushing `¬el`. -/
def ala_scan_lits (S : List Literal) (elits : List Literal) :
    List Literal → Option (Bool × Literal)
  | [] => none
  | el :: rest =>
    if el.negate ∈ S then ala_scan_lits S elits rest
    else if ∀ x ∈ elits, x ≠ el → x ∈ S then
      some (decide (el ∈ S), el)
    else
      ala_scan_lits S elits rest

/-- Scan the non-deleted other clauses in order for the first applicable
`'ala` action. -/
def ala_find (S : List Literal) : List Clause → Option (Bool × Literal)
  | [] => none
  | c :: cs =>
    match ala_scan_lits S c c with
    | some r => some r
    | none => ala_find S cs

theorem ala_scan_lits_mem {S elits : List Literal} {b : Bool} {el : Literal} :
    ∀ {ls : List Literal}, ala_scan_lits S elits ls = some (b, el) →
      el ∈ ls ∧ el.negate ∉ S ∧ (∀ x ∈ elits, x ≠ el → x ∈ S) ∧ b = decide (el ∈ S)
  | [], h => by cases h
  | l :: rest, h => by
    unfold ala_scan_lits at h
    by_cases h1 : l.negate ∈ S
    · simp only [if_pos h1] at h
      obtain ⟨h2, h3⟩ := ala_scan_lits_mem h
      exact ⟨List.mem_cons_of_mem _ h2, h3⟩
    · simp only [if_neg h1] at h
      by_cases h2 : ∀ x ∈ elits, x ≠ l → x ∈ S
      · rw [if_pos h2] at h
        injection h with h
        injection h with hb hl
        subst hl
        exact ⟨List.mem_cons_self _ _, h1, h2, hb.symm⟩
      · rw [if_neg h2] at h
        obtain ⟨h3, h4⟩ := ala_scan_lits_mem h
        exact ⟨List.mem_cons_of_mem _ h3, h4⟩

theorem ala_find_mem {S : List Literal} {b : Bool} {el : Literal} :
    ∀ {cs : List Clause}, ala_find S cs = some (b, el) →
      ∃ c ∈ cs, el ∈ c ∧ el.negate ∉ S ∧ (∀ x ∈ c, x ≠ el → x ∈ S) ∧
        b = decide (el ∈ S)
  | [], h => by cases h
  | c :: cs, h => by
    unfold ala_find at h
    cases hscan : ala_scan_lits S c c with
    | some r =>
      rw [hscan] at h
      injection h with h
      subst h
      obtain ⟨h1, h2, h3, h4⟩ := ala_scan_lits_mem hscan
      exact ⟨c, List.mem_cons_self _ _, h1, h2, h3, h4⟩
    | none =>
      rw [hscan] at h
      obtain ⟨c', hc', hrest⟩ := ala_find_mem h
      exact ⟨c', List.mem_cons_of_mem _ hc', hrest⟩

/-- The `'ala` fixpoint loop: returns `true` iff the clause whose literal
set has grown to `ate_lits` is found to be an asymmetric tautology with
respect to `helpers`. -/
def ala (helpers : List Clause) (ate_lits : List Literal) : Bool :=
  match hfind : ala_find ate_lits helpers with
  | none => false
  | some (true, _) => true
  | some (false, el) => ala helpers (ate_lits ++ [el.negate])
termination_by
  (((helpers.flatten.map Literal.negate).toFinset \ ate_lits.toFinset).card)
decreasing_by
  obtain ⟨c, hc, hel, hneg, -, -⟩ := ala_find_mem hfind
  have hsub : ((helpers.flatten.map Literal.negate).toFinset \
        (ate_lits ++ [el.negate]).toFinset) ⊆
      ((helpers.flatten.map Literal.negate).toFinset \ ate_lits.toFinset) := by
    intro x hx
    simp only [Finset.mem_sdiff, List.mem_toFinset, List.mem_append,
      List.mem_singleton] at hx ⊢
    exact ⟨hx.1, fun h => hx.2 (Or.inl h)⟩
  refine Finset.card_lt_card ((Finset.ssubset_iff_of_subset hsub).mpr
    ⟨el.negate, ?_, ?_⟩)
  · simp only [Finset.mem_sdiff, List.mem_toFinset, List.mem_map]
    exact ⟨⟨el, List.mem_flatten.mpr ⟨c, hc, hel⟩, rfl⟩, hneg⟩
  · simp only [Finset.mem_sdiff, List.mem_toFinset, List.mem_append,
      List.mem_singleton, not_and, not_not]
    exact fun _ => Or.inr trivial

/-- The main loop of `asymmetric_tautology_elimination`: process clauses in
order, marking each deleted or kept.  `processed` holds the clauses already
processed with their final flags; the helpers for the current clause are
the non-deleted processed clauses followed by all the clauses not yet
processed (whose flags are still unset, i.e. false). -/
def ate_go (processed : List (Clause × Bool)) : List Clause → List (Clause × Bool)
  | [] => processed
  | c :: rest =>
    let helpers := (processed.filter (fun p => !p.2)).map Prod.fst ++ rest
    ate_go (processed ++ [(c, ala helpers c)]) rest

/-- `asymmetric_tautology_elimination` from `src/dpll.rs`: delete every
clause the `'ala` loop marks, keeping the survivors in order. -/
def asymmetric_tautology_elimination (f : Formula) : Formula :=
  ((ate_go [] f).filter (fun p => !p.2)).map Prod.fst

/-- `simplify_formula` from `src/dpll.rs`. -/
def simplify_formula (f : Formula) : Formula :=
  asymmetric_tautology_elimination f

/-- `dpll` from `src/dpll.rs`, run under explicit fuel: simplify the input
formula, then iterate the main loop from the empty trail. -/
def dpll {σ : Type} (T : TheoryImpl σ) (s : σ) (formula0 : Formula)
    (fuel : Nat) : DpllResult :=
  dpll_loop T (simplify_formula formula0) fuel s []

theorem ala_nil (ate_lits : List Literal) : ala [] ate_lits = false := by
  unfold ala
  rfl

/-! ### The master lemma about ATE

For any consistent predicate `P` on literals (never both `l` and `¬l`),
if every clause kept by the ATE pass contains a `P`-literal, then every
clause of the input does.  Instantiated with membership in the returned
trail this gives DPLL soundness w.r.t. the un-simplified formula; with
truth under a total assignment it gives satisfiability preservation. -/

/-- A predicate on literals holding of no complementary pair. -/
def PConsistent (P : Literal → Prop) : Prop :=
  ∀ l, P l → ¬ P l.negate

theorem ala_eq_of_none {helpers : List Clause} {x : List Literal}
    (h : ala_find x helpers = none) : ala helpers x = false := by
  unfold ala
  split
  · rfl
  · rename_i heq; rw [h] at heq; cases heq
  · rename_i heq; rw [h] at heq; cases heq

theorem ala_eq_of_true {helpers : List Clause} {x : List Literal} {el : Literal}
    (h : ala_find x helpers = some (true, el)) : ala helpers x = true := by
  unfold ala
  split
  · rename_i heq; rw [h] at heq; cases heq
  · rfl
  · rename_i heq
    rw [h] at heq
    injection heq with heq
    injection heq with heq
    cases heq

theorem ala_eq_of_false {helpers : List Clause} {x : List Literal} {el : Literal}
    (h : ala_find x helpers = some (false, el)) :
    ala helpers x = ala helpers (x ++ [el.negate]) := by
  conv_lhs => unfold ala
  split
  · rename_i heq; rw [h] at heq; cases heq
  · rename_i heq
    rw [h] at heq
    injection heq with heq
    injection heq with heq
    cases heq
  · rename_i el' heq
    rw [h] at heq
    injection heq with heq
    injection heq with heq1 heq2
    subst heq2
    rfl

theorem ala_no_delete (P : Literal → Prop) (hP : PConsistent P)
    (helpers : List Clause) (hhelp : ∀ c ∈ helpers, ∃ l ∈ c, P l)
    (ate_lits : List Literal) (hS : ∀ s ∈ ate_lits, ¬ P s) :
    ala helpers ate_lits = false := by
  revert hS
  refine ala.induct helpers
    (fun x => (∀ s ∈ x, ¬ P s) → ala helpers x = false) ?_ ?_ ?_ ate_lits
  · intro x hfind hS
    exact ala_eq_of_none hfind
  · intro x el hfind hS
    exfalso
    obtain ⟨c, hc, hel, hneg, hrest, hb⟩ := ala_find_mem hfind
    have helS : el ∈ x := of_decide_eq_true hb.symm
    obtain ⟨l, hl, hPl⟩ := hhelp c hc
    by_cases hle : l = el
    · exact hS el helS (hle ▸ hPl)
    · exact hS l (hrest l hl hle) hPl
  · intro x el hfind ih hS
    obtain ⟨c, hc, hel, hneg, hrest, hb⟩ := ala_find_mem hfind
    have helS : el ∉ x := of_decide_eq_false hb.symm
    rw [ala_eq_of_false hfind]
    apply ih
    intro s hs
    rcases List.mem_append.mp hs with hs | hs
    · exact hS s hs
    · simp only [List.mem_singleton] at hs
      subst hs
      obtain ⟨l, hl, hPl⟩ := hhelp c hc
      by_cases hle : l = el
      · subst hle
        exact hP l hPl
      · exact absurd hPl (hS l (hrest l hl hle))

theorem ate_go_extends (rest : List Clause) :
    ∀ processed, ∃ tail, ate_go processed rest = processed ++ tail := by
  induction rest with
  | nil => intro processed; exact ⟨[], by simp [ate_go]⟩
  | cons c rest ih =>
    intro processed
    unfold ate_go
    obtain ⟨tail, htail⟩ := ih (processed ++
      [(c, ala ((processed.filter (fun p => !p.2)).map Prod.fst ++ rest) c)])
    exact ⟨_, by rw [htail, List.append_assoc]⟩

theorem ate_go_map_fst (rest : List Clause) :
    ∀ processed, (ate_go processed rest).map Prod.fst =
      processed.map Prod.fst ++ rest := by
  induction rest with
  | nil => intro processed; simp [ate_go]
  | cons c rest ih =>
    intro processed
    unfold ate_go
    rw [ih]
    simp

theorem ate_go_kept_haveP (P : Literal → Prop) (hP : PConsistent P) :
    ∀ (rest : List Clause) (processed : List (Clause × Bool)),
      (∀ p ∈ ate_go processed rest, p.2 = false → ∃ l ∈ p.1, P l) →
      ∀ c ∈ rest, ∃ l ∈ c, P l := by
  intro rest
  induction rest with
  | nil => intro processed _ c hc; cases hc
  | cons c0 rest ih =>
    intro processed hkept c hc
    have hstep : ate_go processed (c0 :: rest) =
        ate_go (processed ++
          [(c0, ala ((processed.filter (fun p => !p.2)).map Prod.fst ++ rest) c0)])
          rest := rfl
    rw [hstep] at hkept
    have hrest : ∀ c' ∈ rest, ∃ l ∈ c', P l := ih _ hkept
    obtain ⟨tail, htail⟩ := ate_go_extends rest (processed ++
      [(c0, ala ((processed.filter (fun p => !p.2)).map Prod.fst ++ rest) c0)])
    rcases List.mem_cons.mp hc with hceq | hcmem
    · subst hceq
      cases hd : ala ((processed.filter (fun p => !p.2)).map Prod.fst ++ rest) c with
      | false =>
        apply hkept (c, ala ((processed.filter (fun p => !p.2)).map Prod.fst ++ rest) c)
        · rw [htail]
          exact List.mem_append_left _
            (List.mem_append_right _ (List.mem_singleton_self _))
        · rw [hd]
      | true =>
        by_cases hhasP : ∃ l ∈ c, P l
        · exact hhasP
        · exfalso
          push_neg at hhasP
          have hhelp : ∀ c' ∈ (processed.filter (fun p => !p.2)).map Prod.fst ++ rest,
              ∃ l ∈ c', P l := by
            intro c' hc'
            rcases List.mem_append.mp hc' with hc' | hc'
            · obtain ⟨⟨c'', b⟩, hmem, heq⟩ := List.mem_map.mp hc'
              have hfilter := List.mem_filter.mp hmem
              have hb : b = false := by simpa using hfilter.2
              have hmem' : (c'', b) ∈ ate_go (processed ++
                  [(c, ala ((processed.filter (fun p => !p.2)).map Prod.fst ++ rest) c)])
                  rest := by
                rw [htail]
                exact List.mem_append_left _ (List.mem_append_left _ hfilter.1)
              have := hkept (c'', b) hmem' hb
              simp only at heq
              rw [← heq]
              exact this
            · exact hrest c' hc'
          have hfalse := ala_no_delete P hP _ hhelp c hhasP
          rw [hfalse] at hd
          cases hd
    · exact hrest c hcmem

theorem ate_preserves_P (P : Literal → Prop) (hP : PConsistent P) (f : Formula)
    (hkept : ∀ c ∈ asymmetric_tautology_elimination f, ∃ l ∈ c, P l) :
    ∀ c ∈ f, ∃ l ∈ c, P l := by
  apply ate_go_kept_haveP P hP f []
  intro p hp hflag
  apply hkept
  unfold asymmetric_tautology_elimination
  exact List.mem_map.mpr ⟨p, List.mem_filter.mpr ⟨hp, by simp [hflag]⟩, rfl⟩

theorem ate_sublist (f : Formula) :
    (asymmetric_tautology_elimination f).Sublist f := by
  have h1 : ((ate_go [] f).filter (fun p => !p.2)).Sublist (ate_go [] f) :=
    List.filter_sublist _
  have h2 := h1.map Prod.fst
  rw [ate_go_map_fst f []] at h2
  simpa [asymmetric_tautology_elimination] using h2

/-! ### Total assignments and satisfiability -/

/-- Truth of a literal under a total assignment of the atoms. -/
def litSat (v : Nat → Bool) (l : Literal) : Bool :=
  if l.is_negated then !(v l.get_id) else v l.get_id

/-- Truth of a formula under a total assignment: every clause contains a
true literal. -/
def FormulaSat (v : Nat → Bool) (f : Formula) : Prop :=
  ∀ c ∈ f, ∃ l ∈ c, litSat v l = true

/-- Propositional satisfiability. -/
def Satisfiable (f : Formula) : Prop :=
  ∃ v, FormulaSat v f

theorem litSat_negate (v : Nat → Bool) (l : Literal) :
    litSat v l.negate = !(litSat v l) := by
  unfold litSat Literal.is_negated
  rcases lt_trichotomy l.val 0 with h | h | h
  · have h1 : l.negate.val = -l.val := rfl
    rw [Literal.get_id_negate]
    simp only [h1]
    have hneg : ¬(-l.val < 0) := by omega
    simp [h, hneg]
  · exact absurd h l.prop
  · have h1 : l.negate.val = -l.val := rfl
    rw [Literal.get_id_negate]
    simp only [h1]
    have hpos : -l.val < 0 := by omega
    have hnot : ¬(l.val < 0) := by omega
    simp [hpos, hnot]

theorem litSat_consistent (v : Nat → Bool) :
    PConsistent (fun l => litSat v l = true) := by
  intro l h1 h2
  rw [litSat_negate, h1] at h2
  cases h2

/-! ### Invariants of the DPLL trail -/

/-- The atom ids of the trail entries, in order. -/
def modelIds (m : Model) : List Nat :=
  m.map (fun e => e.1.get_id)

/-- The strengthened trail invariant: all atom ids are pairwise distinct. -/
def ModelInv (m : Model) : Prop :=
  (modelIds m).Nodup

theorem contains_id_mem {m : Model} {lit : Literal}
    (h : m.contains lit = true) : lit.get_id ∈ modelIds m := by
  obtain ⟨p, hp⟩ := (Model.contains_iff m lit).mp h
  exact List.mem_map.mpr ⟨(lit, p), hp, rfl⟩

theorem is_true_in_none_of_id_not_mem {m : Model} {lit : Literal}
    (h : lit.get_id ∉ modelIds m) : lit.is_true_in m = none := by
  unfold Literal.is_true_in
  have h1 : m.contains lit = false := by
    cases hcc : m.contains lit with
    | false => rfl
    | true => exact absurd (contains_id_mem hcc) h
  have h2 : m.contains lit.negate = false := by
    cases hcc : m.contains lit.negate with
    | false => rfl
    | true =>
      have := contains_id_mem hcc
      rw [Literal.get_id_negate] at this
      exact absurd this h
  rw [h1, h2]
  rfl

theorem id_not_mem_of_is_true_in_none {m : Model} {lit : Literal}
    (h : lit.is_true_in m = none) : lit.get_id ∉ modelIds m := by
  intro hmem
  obtain ⟨⟨e, p⟩, hep, hid⟩ := List.mem_map.mp hmem
  simp only at hid
  unfold Literal.is_true_in at h
  rcases Literal.eq_or_negate_of_get_id_eq hid with heq | heq
  · have : m.contains lit = true :=
      (Model.contains_iff m lit).mpr ⟨p, heq ▸ hep⟩
    rw [this] at h
    cases h
  · have heq' : e = lit.negate := heq
    have : m.contains lit.negate = true :=
      (Model.contains_iff m lit.negate).mpr ⟨p, heq' ▸ hep⟩
    rw [this] at h
    split at h
    · cases h
    · cases h

theorem modelInv_append {m : Model} {lit : Literal} {p : Provenance}
    (hInv : ModelInv m) (hnone : lit.is_true_in m = none) :
    ModelInv (Model.append m lit p) := by
  unfold ModelInv modelIds Model.append
  simp only [List.map_append, List.map_cons, List.map_nil]
  have hperm : ((m.map (fun e => e.1.get_id)) ++ [lit.get_id]).Perm
      (lit.get_id :: m.map (fun e => e.1.get_id)) :=
    List.perm_append_singleton _ _
  rw [hperm.nodup_iff]
  exact List.nodup_cons.mpr ⟨id_not_mem_of_is_true_in_none hnone, hInv⟩

theorem modelInv_not_both {m : Model} (hInv : ModelInv m) (L : Literal) :
    ¬(m.contains L = true ∧ m.contains L.negate = true) := by
  rintro ⟨h1, h2⟩
  obtain ⟨p, hp⟩ := (Model.contains_iff m L).mp h1
  obtain ⟨q, hq⟩ := (Model.contains_iff m L.negate).mp h2
  have hinj := List.inj_on_of_nodup_map (f := fun e : Literal × Provenance => e.1.get_id) hInv
  have heq := hinj hp hq (by simp)
  have : L = L.negate := congrArg Prod.fst heq
  exact Literal.negate_ne L this.symm

theorem is_true_in_negate_none {m : Model} {l : Literal}
    (h : l.is_true_in m = none) : l.negate.is_true_in m = none := by
  unfold Literal.is_true_in at h ⊢
  rw [Literal.negate_negate]
  split at h
  · cases h
  · split at h
    · cases h
    · rename_i h1 h2
      simp only [Bool.not_eq_true] at h1 h2
      rw [h2, h1]
      rfl

theorem theory_scan_spec {σ : Type} {T : TheoryImpl σ} {s : σ} {m : Model}
    {lit : Literal} :
    ∀ {ls : List Literal}, theory_scan T s m ls = some lit →
      ∃ l ∈ ls, l.is_true_in m = none ∧
        ((T.decide s l = some true ∧ lit = l) ∨
         (T.decide s l = some false ∧ lit = l.negate))
  | [], h => by cases h
  | l :: rest, h => by
    unfold theory_scan at h
    by_cases hnone : l.is_true_in m = none
    · rw [if_pos hnone] at h
      cases hdec : T.decide s l with
      | none =>
        rw [hdec] at h
        obtain ⟨x, hx, hrest⟩ := theory_scan_spec h
        exact ⟨x, List.mem_cons_of_mem _ hx, hrest⟩
      | some b =>
        cases b with
        | true =>
          rw [hdec] at h
          injection h with h
          exact ⟨l, List.mem_cons_self _ _, hnone, Or.inl ⟨hdec, h.symm⟩⟩
        | false =>
          rw [hdec] at h
          injection h with h
          exact ⟨l, List.mem_cons_self _ _, hnone, Or.inr ⟨hdec, h.symm⟩⟩
    · rw [if_neg hnone] at h
      obtain ⟨x, hx, hrest⟩ := theory_scan_spec h
      exact ⟨x, List.mem_cons_of_mem _ hx, hrest⟩

theorem theory_scan_none {σ : Type} {T : TheoryImpl σ} {s : σ} {m : Model} :
    ∀ {ls : List Literal}, theory_scan T s m ls = none →
      ∀ l ∈ ls, l.is_true_in m = none → T.decide s l = none
  | [], _, _, h, _ => by cases h
  | l0 :: rest, h, l, hl, hnone => by
    unfold theory_scan at h
    rcases List.mem_cons.mp hl with heq | hmem
    · subst heq
      rw [if_pos hnone] at h
      cases hdec : T.decide s l with
      | none => rfl
      | some b =>
        rw [hdec] at h
        cases b <;> cases h
    · by_cases hnone0 : l0.is_true_in m = none
      · rw [if_pos hnone0] at h
        cases hdec : T.decide s l0 with
        | none =>
          rw [hdec] at h
          exact theory_scan_none h l hmem hnone
        | some b => rw [hdec] at h; cases b <;> cases h
      · rw [if_neg hnone0] at h
        exact theory_scan_none h l hmem hnone

theorem do_theory_propagation_spec {σ : Type} {T : TheoryImpl σ} {s : σ}
    {m : Model} {lit : Literal} :
    ∀ {f : Formula}, do_theory_propagation T s m f = some lit →
      ∃ c ∈ f, ∃ l ∈ c, l.is_true_in m = none ∧
        ((T.decide s l = some true ∧ lit = l) ∨
         (T.decide s l = some false ∧ lit = l.negate))
  | [], h => by cases h
  | c :: rest, h => by
    unfold do_theory_propagation at h
    cases hscan : theory_scan T s m c with
    | some l =>
      rw [hscan] at h
      injection h with h
      subst h
      obtain ⟨x, hx, hspec⟩ := theory_scan_spec hscan
      exact ⟨c, List.mem_cons_self _ _, x, hx, hspec⟩
    | none =>
      rw [hscan] at h
      obtain ⟨c', hc', hrest⟩ := do_theory_propagation_spec h
      exact ⟨c', List.mem_cons_of_mem _ hc', hrest⟩

theorem do_theory_propagation_none {σ : Type} {T : TheoryImpl σ} {s : σ}
    {m : Model} :
    ∀ {f : Formula}, do_theory_propagation T s m f = none →
      ∀ c ∈ f, ∀ l ∈ c, l.is_true_in m = none → T.decide s l = none
  | [], _, c, hc, _, _, _ => by cases hc
  | c0 :: rest, h, c, hc, l, hl, hnone => by
    unfold do_theory_propagation at h
    cases hscan : theory_scan T s m c0 with
    | some l' => rw [hscan] at h; cases h
    | none =>
      rw [hscan] at h
      rcases List.mem_cons.mp hc with heq | hmem
      · subst heq
        exact theory_scan_none hscan l hl hnone
      · exact do_theory_propagation_none h c hmem l hl hnone

theorem theory_prop_lit_none {σ : Type} {T : TheoryImpl σ} {s : σ} {m : Model}
    {f : Formula} {lit : Literal} (h : do_theory_propagation T s m f = some lit) :
    lit.is_true_in m = none := by
  obtain ⟨c, _, l, _, hnone, hcase⟩ := do_theory_propagation_spec h
  rcases hcase with ⟨_, rfl⟩ | ⟨_, rfl⟩
  · exact hnone
  · exact is_true_in_negate_none hnone

theorem unit_scan_spec {m : Model} {lits : Clause} {lit : Literal} :
    ∀ {ls : List Literal}, unit_scan m lits ls = some lit →
      lit ∈ ls ∧ lit.is_true_in m = none ∧
        Clause.is_true_in (lits.filter (fun l => l ≠ lit)) m = some false
  | [], h => by cases h
  | l :: rest, h => by
    unfold unit_scan at h
    split at h
    · rename_i hcond
      injection h with h
      subst h
      exact ⟨List.mem_cons_self _ _, hcond.1, hcond.2⟩
    · obtain ⟨h1, h2⟩ := unit_scan_spec h
      exact ⟨List.mem_cons_of_mem _ h1, h2⟩

theorem unit_scan_none {m : Model} {lits : Clause} :
    ∀ {ls : List Literal}, unit_scan m lits ls = none →
      ∀ l ∈ ls, ¬(l.is_true_in m = none ∧
        Clause.is_true_in (lits.filter (fun x => x ≠ l)) m = some false)
  | [], _, l, hl, _ => by cases hl
  | l0 :: rest, h, l, hl, hcond => by
    unfold unit_scan at h
    split at h
    · cases h
    · rename_i hncond
      rcases List.mem_cons.mp hl with heq | hmem
      · subst heq
        exact hncond hcond
      · exact unit_scan_none h l hmem hcond

theorem do_unit_propagation_spec {m : Model} {lit : Literal} :
    ∀ {f : Formula}, do_unit_propagation m f = some lit →
      ∃ c ∈ f, Clause.is_true_in c m = none ∧ lit ∈ c ∧
        lit.is_true_in m = none ∧
        Clause.is_true_in (c.filter (fun l => l ≠ lit)) m = some false
  | [], h => by cases h
  | c :: rest, h => by
    unfold do_unit_propagation at h
    by_cases hunk : Clause.is_true_in c m = none
    · rw [if_pos hunk] at h
      cases hscan : unit_scan m c c with
      | some l =>
        rw [hscan] at h
        injection h with h
        subst h
        obtain ⟨h1, h2, h3⟩ := unit_scan_spec hscan
        exact ⟨c, List.mem_cons_self _ _, hunk, h1, h2, h3⟩
      | none =>
        rw [hscan] at h
        obtain ⟨c', hc', hrest⟩ := do_unit_propagation_spec h
        exact ⟨c', List.mem_cons_of_mem _ hc', hrest⟩
    · rw [if_neg hunk] at h
      obtain ⟨c', hc', hrest⟩ := do_unit_propagation_spec h
      exact ⟨c', List.mem_cons_of_mem _ hc', hrest⟩

theorem do_unit_propagation_none {m : Model} :
    ∀ {f : Formula}, do_unit_propagation m f = none →
      ∀ c ∈ f, Clause.is_true_in c m = none →
        ∀ l ∈ c, ¬(l.is_true_in m = none ∧
          Clause.is_true_in (c.filter (fun x => x ≠ l)) m = some false)
  | [], _, c, hc, _, _, _, _ => by cases hc
  | c0 :: rest, h, c, hc, hunk, l, hl, hcond => by
    unfold do_unit_propagation at h
    rcases List.mem_cons.mp hc with heq | hmem
    · subst heq
      rw [if_pos hunk] at h
      cases hscan : unit_scan m c c with
      | some l' => rw [hscan] at h; cases h
      | none => exact unit_scan_none hscan l hl hcond
    · by_cases hunk0 : Clause.is_true_in c0 m = none
      · rw [if_pos hunk0] at h
        cases hscan : unit_scan m c0 c0 with
        | some l' => rw [hscan] at h; cases h
        | none =>
          rw [hscan] at h
          exact do_unit_propagation_none h c hmem hunk l hl hcond
      · rw [if_neg hunk0] at h
        exact do_unit_propagation_none h c hmem hunk l hl hcond

theorem decision_scan_spec {m : Model} {lit : Literal} :
    ∀ {ls : List Literal}, decision_scan m ls = some lit →
      ∃ l ∈ ls, l.is_true_in m = none ∧ lit.get_id = l.get_id
  | [], h => by cases h
  | l :: rest, h => by
    unfold decision_scan at h
    split at h
    · rename_i hnone
      injection h with h
      refine ⟨l, List.mem_cons_self _ _, hnone, ?_⟩
      rw [← h]
      show ((l.get_id : Int)).natAbs = l.get_id
      exact Int.natAbs_ofNat _
    · obtain ⟨x, hx, hrest⟩ := decision_scan_spec h
      exact ⟨x, List.mem_cons_of_mem _ hx, hrest⟩

theorem do_decision_lit_none {m : Model} {lit : Literal} :
    ∀ {f : Formula}, do_decision m f = some lit → lit.is_true_in m = none
  | [], h => by cases h
  | c :: rest, h => by
    unfold do_decision at h
    by_cases hunk : Clause.is_true_in c m = none
    · rw [if_pos hunk] at h
      cases hscan : decision_scan m c with
      | some l =>
        rw [hscan] at h
        injection h with h
        subst h
        obtain ⟨x, _, hxnone, hid⟩ := decision_scan_spec hscan
        apply is_true_in_none_of_id_not_mem
        rw [hid]
        exact id_not_mem_of_is_true_in_none hxnone
      | none =>
        rw [hscan] at h
        exact do_decision_lit_none h
    · rw [if_neg hunk] at h
      exact do_decision_lit_none h

theorem do_backjump_go_spec :
    ∀ {l : List (Literal × Provenance)} {m' : Model}, do_backjump.go l = some m' →
      ∃ pre d rest, l = pre ++ (d, Provenance.Decision) :: rest ∧
        m' = Model.append rest.reverse d.negate Provenance.Backjump
  | [], _, h => by cases h
  | (lit, prov) :: rest, m', h => by
    unfold do_backjump.go at h
    by_cases hdec : prov = Provenance.Decision
    · rw [if_pos hdec] at h
      injection h with h
      subst hdec
      exact ⟨[], lit, rest, rfl, h.symm⟩
    · rw [if_neg hdec] at h
      obtain ⟨pre, d, r, hl, hm⟩ := do_backjump_go_spec h
      exact ⟨(lit, prov) :: pre, d, r, by rw [hl]; rfl, hm⟩

theorem do_backjump_spec {m m' : Model} (h : do_backjump m = some m') :
    ∃ pre d suf, m = pre ++ (d, Provenance.Decision) :: suf ∧
      m' = Model.append pre d.negate Provenance.Backjump := by
  unfold do_backjump at h
  obtain ⟨pre0, d, rest0, hl, hm⟩ := do_backjump_go_spec h
  refine ⟨rest0.reverse, d, pre0.reverse, ?_, hm⟩
  have := congrArg List.reverse hl
  rw [List.reverse_reverse] at this
  rw [this]
  simp

theorem dpll_step_sat {σ : Type} {T : TheoryImpl σ} {f : Formula} {s : σ}
    {m m' : Model} (h : dpll_step T f s m = StepResult.sat m') :
    m' = m ∧ Formula.is_true_in f m = some true := by
  unfold dpll_step at h
  cases hf : Formula.is_true_in f m with
  | some b =>
    cases b with
    | true =>
      rw [hf] at h
      injection h with h
      exact ⟨h.symm, rfl⟩
    | false =>
      rw [hf] at h
      cases hbj : do_backjump m <;> rw [hbj] at h <;> cases h
  | none =>
    rw [hf] at h
    cases htp : do_theory_propagation T s m f <;> rw [htp] at h
    · cases hup : do_unit_propagation m f <;> rw [hup] at h
      · cases hd : do_decision m f <;> rw [hd] at h <;> cases h
      · cases h
    · cases h

theorem dpll_step_cont_inv {σ : Type} {T : TheoryImpl σ} {f : Formula} {s : σ}
    {m : Model} {s' : σ} {m' : Model}
    (h : dpll_step T f s m = StepResult.cont s' m') (hInv : ModelInv m) :
    ModelInv m' ∧ ∃ pre lit prov, m' = Model.append pre lit prov ∧
      lit.is_true_in pre = none := by
  unfold dpll_step at h
  cases hf : Formula.is_true_in f m with
  | some b =>
    cases b with
    | true => rw [hf] at h; cases h
    | false =>
      rw [hf] at h
      cases hbj : do_backjump m with
      | none => rw [hbj] at h; cases h
      | some m0 =>
        rw [hbj] at h
        injection h with h1 h2
        subst h2
        obtain ⟨pre, d, suf, hm, hm'⟩ := do_backjump_spec hbj
        have hids : modelIds m = modelIds pre ++ d.get_id :: modelIds suf := by
          rw [hm]
          unfold modelIds
          simp
        have hnodup : (modelIds pre ++ d.get_id :: modelIds suf).Nodup := by
          rw [← hids]; exact hInv
        have hpre : (modelIds pre).Nodup := (List.nodup_append.mp hnodup).1
        have hdisj := (List.nodup_append.mp hnodup).2.2
        have hdid : d.get_id ∉ modelIds pre := by
          intro hmem
          exact hdisj hmem (List.mem_cons_self _ _)
        have hnone : d.negate.is_true_in pre = none := by
          apply is_true_in_none_of_id_not_mem
          rwa [Literal.get_id_negate]
        refine ⟨?_, pre, d.negate, Provenance.Backjump, hm', hnone⟩
        rw [hm']
        exact modelInv_append hpre hnone
  | none =>
    rw [hf] at h
    cases htp : do_theory_propagation T s m f with
    | some lit =>
      rw [htp] at h
      injection h with h1 h2
      subst h2
      have hnone := theory_prop_lit_none htp
      exact ⟨modelInv_append hInv hnone, m, lit, Provenance.TheoryPropagation, rfl, hnone⟩
    | none =>
      rw [htp] at h
      cases hup : do_unit_propagation m f with
      | some lit =>
        rw [hup] at h
        injection h with h1 h2
        subst h2
        obtain ⟨c, _, _, _, hnone, _⟩ := do_unit_propagation_spec hup
        exact ⟨modelInv_append hInv hnone, m, lit, Provenance.UnitPropagation, rfl, hnone⟩
      | none =>
        rw [hup] at h
        cases hd : do_decision m f with
        | some lit =>
          rw [hd] at h
          injection h with h1 h2
          subst h2
          have hnone := do_decision_lit_none hd
          exact ⟨modelInv_append hInv hnone, m, lit, Provenance.Decision, rfl, hnone⟩
        | none => rw [hd] at h; cases h

/-- The states the `dpll` main loop can reach, from any initial theory
state and the empty trail. -/
inductive DpllReach {σ : Type} (T : TheoryImpl σ) (f : Formula) : σ → Model → Prop
  | init (s : σ) : DpllReach T f s []
  | step {s : σ} {m : Model} {s' : σ} {m' : Model} :
      DpllReach T f s m → dpll_step T f s m = StepResult.cont s' m' →
      DpllReach T f s' m'

theorem dpll_reach_inv {σ : Type} {T : TheoryImpl σ} {f : Formula} {s : σ}
    {m : Model} (h : DpllReach T f s m) : ModelInv m := by
  induction h with
  | init => exact List.nodup_nil
  | step _ hstep ih => exact (dpll_step_cont_inv hstep ih).1

theorem dpll_loop_sat_inv {σ : Type} (T : TheoryImpl σ) (f : Formula) :
    ∀ (fuel : Nat) (s : σ) (m : Model) (M : Model),
      dpll_loop T f fuel s m = DpllResult.sat M → ModelInv m →
      Formula.is_true_in f M = some true ∧ ModelInv M := by
  intro fuel
  induction fuel with
  | zero => intro s m M h _; cases h
  | succ fuel ih =>
    intro s m M h hInv
    unfold dpll_loop at h
    cases hstep : dpll_step T f s m with
    | sat m0 =>
      rw [hstep] at h
      injection h with h
      subst h
      obtain ⟨heq, htrue⟩ := dpll_step_sat hstep
      subst heq
      exact ⟨htrue, hInv⟩
    | unsat => rw [hstep] at h; cases h
    | fatal => rw [hstep] at h; cases h
    | cont s' m' =>
      rw [hstep] at h
      exact ih s' m' M h (dpll_step_cont_inv hstep hInv).1

/-! ### Claim theorems about the DPLL loop and ATE -/

/-- C1: DPLL soundness.  For every theory and formula, if `dpll` returns a
model `M`, then every clause of the original input formula — before the
internal asymmetric-tautology-elimination pre-pass — contains a literal
that is a member of `M`. -/
theorem C1_dpll_soundness {σ : Type} (T : TheoryImpl σ) (s : σ)
    (formula0 : Formula) (fuel : Nat) (M : Model)
    (h : dpll T s formula0 fuel = DpllResult.sat M) :
    ∀ c ∈ formula0, ∃ l ∈ c, M.contains l = true := by
  unfold dpll at h
  obtain ⟨htrue, hInv⟩ := dpll_loop_sat_inv T _ fuel s [] M h List.nodup_nil
  apply ate_preserves_P (fun l => M.contains l = true)
  · intro l h1 h2
    exact modelInv_not_both hInv l ⟨h1, h2⟩
  · intro c hc
    have hmem : c ∈ simplify_formula formula0 := hc
    have := (formula_is_true_in_true_iff _ M).mp htrue c hmem
    obtain ⟨l, hl, hlt⟩ := (clause_is_true_in_true_iff c M).mp this
    exact ⟨l, hl, (literal_is_true_in_true_iff l M).mp hlt⟩

/-- The concrete literal `1`. -/
def lit1 : Literal := ⟨1, by decide⟩

theorem simplify_single : simplify_formula [[lit1]] = [[lit1]] := by
  unfold simplify_formula asymmetric_tautology_elimination
  have h : ate_go [] [[lit1]] = [([lit1], false)] := by
    show ate_go [([lit1], ala ([] ++ []) [lit1])] [] = [([lit1], false)]
    rw [show ([] ++ [] : List Clause) = [] from rfl, ala_nil]
    rfl
  rw [h]
  rfl

theorem dpll_single :
    dpll EmptyTheory () [[lit1]] 10 =
      DpllResult.sat [(lit1, Provenance.UnitPropagation)] := by
  unfold dpll
  rw [simplify_single]
  decide

/-- Witness for C1 at a concrete input: running `dpll` on the formula
`(1)` yields the trail `[1]`, and the clause `(1)` indeed contains a
member of that trail. -/
theorem C1_dpll_soundness_witness :
    ∃ l ∈ [lit1], Model.contains [(lit1, Provenance.UnitPropagation)] l = true :=
  C1_dpll_soundness EmptyTheory () [[lit1]] 10 _ dpll_single
    [lit1] (List.mem_singleton_self _)

/-- C6: trail consistency.  In every state the `dpll` loop can reach, the
model never contains a literal together with its negation; and every trail
extension the next loop iteration performs (theory propagation, unit
propagation, decision, or the append after a backjump pop) appends a
literal whose truth was undetermined in the trail it is appended to. -/
theorem C6_trail_consistent {σ : Type} (T : TheoryImpl σ) (f : Formula)
    (s : σ) (m : Model) (h : DpllReach T f s m) :
    (∀ L : Literal, ¬(m.contains L = true ∧ m.contains L.negate = true)) ∧
    (∀ (s' : σ) (m' : Model), dpll_step T f s m = StepResult.cont s' m' →
      ∃ pre lit prov, m' = Model.append pre lit prov ∧
        lit.is_true_in pre = none) := by
  have hInv := dpll_reach_inv h
  exact ⟨modelInv_not_both hInv,
    fun s' m' hstep => (dpll_step_cont_inv hstep hInv).2⟩

/-- Witness for C6 at the initial reachable state. -/
theorem C6_trail_consistent_witness :
    ¬(Model.contains [] lit1 = true ∧ Model.contains [] lit1.negate = true) :=
  (C6_trail_consistent EmptyTheory [[lit1]] () [] (DpllReach.init ())).1 lit1

/-- C9: asymmetric tautology elimination preserves satisfiability, and the
pass only removes whole clauses — the surviving clauses are a sublist of
the input (unchanged, in their original order). -/
theorem C9_ate_equisatisfiable (f : Formula) :
    (Satisfiable f ↔ Satisfiable (asymmetric_tautology_elimination f)) ∧
    (asymmetric_tautology_elimination f).Sublist f := by
  refine ⟨⟨?_, ?_⟩, ate_sublist f⟩
  · rintro ⟨v, hv⟩
    exact ⟨v, fun c hc => hv c ((ate_sublist f).subset hc)⟩
  · rintro ⟨v, hv⟩
    refine ⟨v, ?_⟩
    intro c hc
    exact ate_preserves_P (fun l => litSat v l = true) (litSat_consistent v)
      f hv c hc

/-- The concrete literal `2`. -/
def lit2 : Literal := ⟨2, by decide⟩

/-- The concrete literal `3`. -/
def lit3 : Literal := ⟨3, by decide⟩

/-- A theory that decides every literal positively (a legal implementor of
the `Theory` trait, used to exercise the theory-propagation scan). -/
def AlwaysTrueTheory : TheoryImpl Unit where
  decide := fun _ _ => some true
  incorporate := fun s _ => s
  forget := fun s => s

/-- C2 counterexample: with the model `[1]`, the clause `(1 ∨ 2)` already
evaluates to true, yet `do_theory_propagation` proposes the literal `2`
drawn from it (the literal `2` occurs in no other clause), because the
scan never skips clauses that are already true. -/
theorem C2_counterexample :
    do_theory_propagation AlwaysTrueTheory () [(lit1, Provenance.Decision)]
        [[lit1, lit2], [lit3]] = some lit2 ∧
    Clause.is_true_in [lit1, lit2] [(lit1, Provenance.Decision)] = some true ∧
    lit2 ∉ ([lit3] : Clause) := by
  decide

/-- C2 amended: the theory-propagation scan visits every clause — including
clauses already true — in order, and proposes the first unassigned literal
the theory decides (the literal itself on `Some(true)`, its negation on
`Some(false)`); it returns `none` exactly when the theory decides no
unassigned literal of any clause. -/
theorem C2_theory_propagation_amended {σ : Type} (T : TheoryImpl σ) (s : σ)
    (m : Model) (f : Formula) :
    (∀ lit, do_theory_propagation T s m f = some lit →
      ∃ c ∈ f, ∃ l ∈ c, l.is_true_in m = none ∧
        ((T.decide s l = some true ∧ lit = l) ∨
         (T.decide s l = some false ∧ lit = l.negate))) ∧
    (do_theory_propagation T s m f = none →
      ∀ c ∈ f, ∀ l ∈ c, l.is_true_in m = none → T.decide s l = none) :=
  ⟨fun _ h => do_theory_propagation_spec h, fun h => do_theory_propagation_none h⟩

/-- Witness for the amended C2 theorem at a concrete input. -/
theorem C2_theory_propagation_amended_witness :
    EmptyTheory.decide () lit2 = none :=
  (C2_theory_propagation_amended EmptyTheory () [] [[lit2]]).2 (by decide)
    [lit2] (List.mem_singleton_self _) lit2 (List.mem_singleton_self _) (by decide)

/-- C7 counterexample: under the empty model, the clause `(2 ∨ 2)` — in
which the unassigned literal `2` occurs twice and no literal is false —
is treated as unit by `do_unit_propagation`, which returns `Some(2)`:
the filter removes every copy of the candidate literal at once. -/
theorem C7_counterexample :
    do_unit_propagation [] [[lit2, lit2]] = some lit2 ∧
    Literal.is_true_in lit2 [] = none ∧
    List.count lit2 [lit2, lit2] = 2 := by
  decide

/-- C7 amended: `do_unit_propagation` returns `Some(L)` exactly when some
clause of unknown truth contains an unassigned literal `L` such that the
clause restricted to the literals different from `L` — all duplicate
occurrences of `L` being removed together — evaluates to false; in
particular `(2 ∨ 2)` under the empty model is unit and propagates `2`. -/
theorem C7_unit_propagation_amended (m : Model) (f : Formula) :
    (∀ lit, do_unit_propagation m f = some lit →
      ∃ c ∈ f, Clause.is_true_in c m = none ∧ lit ∈ c ∧
        lit.is_true_in m = none ∧
        Clause.is_true_in (c.filter (fun l => l ≠ lit)) m = some false) ∧
    (do_unit_propagation m f = none →
      ∀ c ∈ f, Clause.is_true_in c m = none →
        ∀ l ∈ c, ¬(l.is_true_in m = none ∧
          Clause.is_true_in (c.filter (fun x => x ≠ l)) m = some false)) :=
  ⟨fun _ h => do_unit_propagation_spec h, fun h => do_unit_propagation_none h⟩

/-- Witness for the amended C7 theorem at a concrete input. -/
theorem C7_unit_propagation_amended_witness :
    ¬(Literal.is_true_in lit2 [] = none ∧
      Clause.is_true_in (([lit2, lit3] : Clause).filter (fun x => x ≠ lit2)) []
        = some false) :=
  (C7_unit_propagation_amended [] [[lit2, lit3]]).2 (by decide)
    [lit2, lit3] (List.mem_singleton_self _) (by decide)
    lit2 (List.mem_cons_self _ _)

/-! ### The DIMACS-CNF parser (`src/dimacs.rs`)

Strings are modelled as lists of characters; `str::lines` and
`split_ascii_whitespace` are implemented over them. -/

/-- Rust `char::is_ascii_whitespace`: space, tab, newline, carriage
return, form feed. -/
def isAsciiWhitespace (c : Char) : Bool :=
  c = ' ' ∨ c = '\t' ∨ c = '\n' ∨ c = '\r' ∨ c = '\x0C'

/-- `str::lines` strips one trailing carriage return from each line. -/
def stripCR (l : List Char) : List Char :=
  if l.getLast? = some '\r' then l.dropLast else l

/-- Worker for `splitLines`, accumulating the current line reversed. -/
def splitLinesGo (acc : List Char) : List Char → List (List Char)
  | [] => if acc = [] then [] else [stripCR acc.reverse]
  | c :: cs =>
    if c = '\n' then stripCR acc.reverse :: splitLinesGo [] cs
    else splitLinesGo (c :: acc) cs

/-- Rust `str::lines`. -/
def splitLines (cs : List Char) : List (List Char) :=
  splitLinesGo [] cs

/-- Worker for `splitWords`, accumulating the current word reversed. -/
def splitWordsGo (acc : List Char) : List Char → List (List Char)
  | [] => if acc = [] then [] else [acc.reverse]
  | c :: cs =>
    if isAsciiWhitespace c then
      if acc = [] then splitWordsGo [] cs
      else acc.reverse :: splitWordsGo [] cs
    else splitWordsGo (c :: acc) cs

/-- Rust `str::split_ascii_whitespace`. -/
def splitWords (cs : List Char) : List (List Char) :=
  splitWordsGo [] cs

/-- The numeric value of a decimal digit character. -/
def digitVal (c : Char) : Nat := c.toNat - '0'.toNat

/-- A nonempty all-digit character list parsed as a decimal numeral. -/
def parseDigits? (cs : List Char) : Option Nat :=
  if cs ≠ [] ∧ cs.all Char.isDigit then
    some (cs.foldl (fun acc c => acc * 10 + digitVal c) 0)
  else none

/-- Rust `usize::from_str`: an optional leading `+`, then digits; a value
above `usize::MAX` (the target is 64-bit) is an overflow error. -/
def parseNat? (cs : List Char) : Option Nat :=
  match (match cs with
         | '+' :: t => parseDigits? t
         | cs => parseDigits? cs) with
  | some n => if n ≤ 18446744073709551615 then some n else none
  | none => none

/-- Rust `isize::from_str`: an optional sign, then digits; a value outside
`isize::MIN ..= isize::MAX` (the target is 64-bit) is an overflow error. -/
def parseInt? : List Char → Option Int
  | '+' :: t =>
    match parseDigits? t with
    | some n => if n ≤ 9223372036854775807 then some (n : Int) else none
    | none => none
  | '-' :: t =>
    match parseDigits? t with
    | some n => if n ≤ 9223372036854775808 then some (-(n : Int)) else none
    | none => none
  | cs =>
    match parseDigits? cs with
    | some n => if n ≤ 9223372036854775807 then some (n : Int) else none
    | none => none

instance {ε α : Type} [DecidableEq ε] [DecidableEq α] : DecidableEq (Except ε α) :=
  fun a b =>
    match a, b with
    | Except.error e, Except.error e' =>
      if h : e = e' then Decidable.isTrue (by rw [h])
      else Decidable.isFalse (fun hh => by cases hh; exact h rfl)
    | Except.error _, Except.ok _ => Decidable.isFalse (fun hh => by cases hh)
    | Except.ok _, Except.error _ => Decidable.isFalse (fun hh => by cases hh)
    | Except.ok x, Except.ok y =>
      if h : x = y then Decidable.isTrue (by rw [h])
      else Decidable.isFalse (fun hh => by cases hh; exact h rfl)

/-- `dimacs::ParseError`. -/
inductive DimacsError : Type
  | CannotParsePreludeLine (line : List Char)
  | CannotParseClauseLine (line : List Char)
  | UnexpectedFormat (fmt : List Char)
  | WrongNumberOfVariables (expected actual : Nat)
  | WrongNumberOfClauses (expected actual : Nat)
deriving DecidableEq

/-- The mutable locals of `dimacs::from_string`. -/
structure DimacsSt : Type where
  expVars : Nat
  expCls : Nat
  clause : List Literal
  clauses : List Clause
  vars : Nat
deriving DecidableEq

/-- Processing of one whitespace-separated token of a clause line. -/
def processClauseWord (line : List Char) (st : DimacsSt) (w : List Char) :
    Except DimacsError DimacsSt :=
  match parseInt? w with
  | none => Except.error (DimacsError.CannotParseClauseLine line)
  | some n =>
    if h : n = 0 then
      Except.ok { st with clauses := st.clauses ++ [st.clause], clause := [] }
    else
      Except.ok { st with
        vars := if n.natAbs > st.vars then n.natAbs else st.vars,
        clause := st.clause ++ [⟨n, h⟩] }

/-- Processing of the tokens of a clause line, in order. -/
def processClauseWords (line : List Char) (st : DimacsSt) :
    List (List Char) → Except DimacsError DimacsSt
  | [] => Except.ok st
  | w :: ws =>
    match processClauseWord line st w with
    | Except.error e => Except.error e
    | Except.ok st' => processClauseWords line st' ws

/-- Processing of one line while in the prelude: skip comments, or parse
the `p cnf <nvars> <nclauses>` header.  The returned Bool is whether the
parser is still in the prelude. -/
def processPreludeLine (line : List Char) (st : DimacsSt) :
    List (List Char) → Except DimacsError (Bool × DimacsSt)
  | [] => Except.error (DimacsError.CannotParsePreludeLine line)
  | w :: rest =>
    if w = ['c'] then Except.ok (true, st)
    else if w = ['p'] then
      match rest with
      | [] => Except.error (DimacsError.CannotParsePreludeLine line)
      | w2 :: rest2 =>
        if w2 = ['c', 'n', 'f'] then
          match rest2 with
          | [] => Except.error (DimacsError.CannotParsePreludeLine line)
          | w3 :: rest3 =>
            match parseNat? w3 with
            | none => Except.error (DimacsError.CannotParsePreludeLine line)
            | some nv =>
              match rest3 with
              | [] => Except.error (DimacsError.CannotParsePreludeLine line)
              | w4 :: _ =>
                match parseNat? w4 with
                | none => Except.error (DimacsError.CannotParsePreludeLine line)
                | some nc =>
                  Except.ok (false, { st with expVars := nv, expCls := nc })
        else Except.error (DimacsError.UnexpectedFormat w2)
    else Except.error (DimacsError.CannotParsePreludeLine line)

/-- The line loop of `dimacs::from_string`. -/
def fromLinesGo (inPrelude : Bool) (st : DimacsSt) :
    List (List Char) → Except DimacsError DimacsSt
  | [] => Except.ok st
  | line :: rest =>
    if inPrelude then
      match processPreludeLine line st (splitWords line) with
      | Except.error e => Except.error e
      | Except.ok (b, st') => fromLinesGo b st' rest
    else
      match processClauseWords line st (splitWords line) with
      | Except.error e => Except.error e
      | Except.ok st' => fromLinesGo false st' rest

/-- `dimacs::from_string`: run the line loop from the initial state, then
check the declared variable and clause counts.  A trailing unterminated
clause is discarded (as in the source, where `clause` is dropped). -/
def dimacs_from_string (input : List Char) : Except DimacsError Formula :=
  match fromLinesGo true ⟨0, 0, [], [], 0⟩ (splitLines input) with
  | Except.error e => Except.error e
  | Except.ok st =>
    if st.vars = st.expVars then
      if st.clauses.length = st.expCls then Except.ok st.clauses
      else Except.error (DimacsError.WrongNumberOfClauses st.expCls st.clauses.length)
    else Except.error (DimacsError.WrongNumberOfVariables st.expVars st.vars)


theorem splitLinesGo_append_newline {ys : List Char} :
    ∀ (xs acc : List Char), (∀ c ∈ xs, c ≠ '\n') →
      splitLinesGo acc (xs ++ '\n' :: ys) =
        stripCR (acc.reverse ++ xs) :: splitLinesGo [] ys := by
  intro xs
  induction xs with
  | nil =>
    intro acc _
    show splitLinesGo acc ('\n' :: ys) = stripCR (acc.reverse ++ []) :: splitLinesGo [] ys
    rw [List.append_nil]
    rfl
  | cons c xs ih =>
    intro acc hc
    have hcn : c ≠ '\n' := hc c (List.mem_cons_self _ _)
    show splitLinesGo acc (c :: (xs ++ '\n' :: ys)) = _
    have hstep : splitLinesGo acc (c :: (xs ++ '\n' :: ys)) =
        if c = '\n' then stripCR acc.reverse :: splitLinesGo [] (xs ++ '\n' :: ys)
        else splitLinesGo (c :: acc) (xs ++ '\n' :: ys) := rfl
    rw [hstep, if_neg hcn, ih (c :: acc) (fun x hx => hc x (List.mem_cons_of_mem _ hx))]
    simp

theorem splitWordsGo_absorb {cs : List Char} :
    ∀ (w acc : List Char), (∀ c ∈ w, isAsciiWhitespace c = false) →
      splitWordsGo acc (w ++ cs) = splitWordsGo (w.reverse ++ acc) cs := by
  intro w
  induction w with
  | nil => intro acc _; simp
  | cons c w ih =>
    intro acc hw
    have hcw : isAsciiWhitespace c = false := hw c (List.mem_cons_self _ _)
    show splitWordsGo acc (c :: (w ++ cs)) = _
    have hstep : splitWordsGo acc (c :: (w ++ cs)) =
        if isAsciiWhitespace c then
          (if acc = [] then splitWordsGo [] (w ++ cs)
           else acc.reverse :: splitWordsGo [] (w ++ cs))
        else splitWordsGo (c :: acc) (w ++ cs) := rfl
    rw [hstep, if_neg (by rw [hcw]; exact Bool.false_ne_true),
      ih (c :: acc) (fun x hx => hw x (List.mem_cons_of_mem _ hx))]
    simp

theorem splitWordsGo_space {acc cs : List Char} (h : acc ≠ []) :
    splitWordsGo acc (' ' :: cs) = acc.reverse :: splitWordsGo [] cs := by
  have hstep : splitWordsGo acc (' ' :: cs) =
      if isAsciiWhitespace ' ' then
        (if acc = [] then splitWordsGo [] cs else acc.reverse :: splitWordsGo [] cs)
      else splitWordsGo (' ' :: acc) cs := rfl
  rw [hstep, if_pos (by decide), if_neg h]

theorem not_whitespace_of_digit {c : Char} (h : c.isDigit = true) :
    isAsciiWhitespace c = false := by
  have hne : ∀ d : Char, d.isDigit = false → c ≠ d := by
    intro d hd heq
    rw [heq, hd] at h
    cases h
  unfold isAsciiWhitespace
  rw [decide_eq_false_iff_not]
  simp only [not_or]
  exact ⟨hne ' ' (by decide), hne '\t' (by decide), hne '\n' (by decide),
    hne '\r' (by decide), hne '\x0C' (by decide)⟩

theorem ne_newline_of_digit {c : Char} (h : c.isDigit = true) : c ≠ '\n' := by
  intro heq
  rw [heq] at h
  cases h

theorem splitWords_prelude_line (ds : List Char) (hne : ds ≠ [])
    (hdg : ∀ c ∈ ds, c.isDigit = true) :
    splitWords (('p' :: ' ' :: 'c' :: 'n' :: 'f' :: ' ' :: []) ++ ds ++
        (' ' :: '1' :: [])) =
      [['p'], ['c', 'n', 'f'], ds, ['1']] := by
  unfold splitWords
  have h1 : (('p' :: ' ' :: 'c' :: 'n' :: 'f' :: ' ' :: []) ++ ds ++
      (' ' :: '1' :: [])) =
      ['p'] ++ (' ' :: (['c', 'n', 'f'] ++ (' ' :: (ds ++ (' ' :: '1' :: []))))) := by
    simp
  rw [h1]
  rw [splitWordsGo_absorb ['p'] [] (by decide)]
  rw [show ((['p'] : List Char).reverse ++ []) = ['p'] from rfl]
  rw [splitWordsGo_space (by decide)]
  rw [splitWordsGo_absorb ['c', 'n', 'f'] [] (by decide)]
  rw [show ((['c', 'n', 'f'] : List Char).reverse ++ []) = ['f', 'n', 'c'] from rfl]
  rw [splitWordsGo_space (by decide)]
  rw [splitWordsGo_absorb ds [] (fun c hc => not_whitespace_of_digit (hdg c hc))]
  rw [show (ds.reverse ++ [] : List Char) = ds.reverse by simp]
  rw [splitWordsGo_space (by simpa using hne)]
  rw [show splitWordsGo [] ['1'] = [['1']] from rfl]
  simp

/-- C8 counterexample: the DIMACS input declaring 2 variables whose single
clause only mentions variable 1 — the maximum absolute literal is strictly
less than the declared count — is rejected with `WrongNumberOfVariables`,
not parsed. -/
theorem C8_counterexample :
    dimacs_from_string ("p cnf 2 1\n1 0".toList) =
      Except.error (DimacsError.WrongNumberOfVariables 2 1) := by
  decide

/-- C8 amended: the final variable check of the parser is an equality
test, not an at-most test.  Over the input family `p cnf <ds> 1\n1 0`,
whose maximum absolute literal is `1`: for every digit numeral `ds` whose
`usize` parse yields a value `n ≠ 1` — in particular whenever `n` is
strictly greater than `1` — the input is rejected with
`WrongNumberOfVariables n 1`; for every digit numeral whose `usize` parse
fails (for a nonempty all-digit string, exactly when its value overflows
`usize::MAX`) the input is rejected with `CannotParsePreludeLine`, not
with a variable-count error; and with `n = 1` the same input parses to
the one-clause formula `(1)`. -/
theorem C8_parse_fails_amended :
    (∀ (ds : List Char) (n : Nat), ds ≠ [] → (∀ c ∈ ds, c.isDigit = true) →
      parseNat? ds = some n → n ≠ 1 →
      dimacs_from_string (('p' :: ' ' :: 'c' :: 'n' :: 'f' :: ' ' :: []) ++ ds ++
          (' ' :: '1' :: '\n' :: '1' :: ' ' :: '0' :: [])) =
        Except.error (DimacsError.WrongNumberOfVariables n 1)) ∧
    (∀ (ds : List Char), ds ≠ [] → (∀ c ∈ ds, c.isDigit = true) →
      parseNat? ds = none →
      dimacs_from_string (('p' :: ' ' :: 'c' :: 'n' :: 'f' :: ' ' :: []) ++ ds ++
          (' ' :: '1' :: '\n' :: '1' :: ' ' :: '0' :: [])) =
        Except.error (DimacsError.CannotParsePreludeLine
          (('p' :: ' ' :: 'c' :: 'n' :: 'f' :: ' ' :: []) ++ ds ++
            (' ' :: '1' :: [])))) ∧
    dimacs_from_string ("p cnf 1 1\n1 0".toList) = Except.ok [[lit1]] := by
  refine ⟨?_, ?_, ?_⟩
  · intro ds n hne hdg hparse hn1
    have hnl : ∀ c ∈ (('p' :: ' ' :: 'c' :: 'n' :: 'f' :: ' ' :: []) ++ ds ++
        (' ' :: '1' :: [])), c ≠ '\n' := by
      intro c hc
      simp only [List.append_assoc, List.mem_append, List.mem_cons,
        List.not_mem_nil, or_false] at hc
      rcases hc with hc | hc | hc
      · rcases hc with rfl | rfl | rfl | rfl | rfl | rfl <;> decide
      · exact ne_newline_of_digit (hdg c hc)
      · rcases hc with rfl | rfl <;> decide
    have hlines : splitLines (('p' :: ' ' :: 'c' :: 'n' :: 'f' :: ' ' :: []) ++ ds ++
        (' ' :: '1' :: '\n' :: '1' :: ' ' :: '0' :: [])) =
        (('p' :: ' ' :: 'c' :: 'n' :: 'f' :: ' ' :: []) ++ ds ++ (' ' :: '1' :: [])) ::
          [['1', ' ', '0']] := by
      have hsplit : (('p' :: ' ' :: 'c' :: 'n' :: 'f' :: ' ' :: []) ++ ds ++
          (' ' :: '1' :: '\n' :: '1' :: ' ' :: '0' :: [])) =
          ((('p' :: ' ' :: 'c' :: 'n' :: 'f' :: ' ' :: []) ++ ds ++ (' ' :: '1' :: [])) ++
            '\n' :: ('1' :: ' ' :: '0' :: [])) := by
        simp
      rw [hsplit]
      unfold splitLines
      rw [splitLinesGo_append_newline _ [] hnl]
      have hlast : stripCR ((List.reverse ([] : List Char)) ++
          (('p' :: ' ' :: 'c' :: 'n' :: 'f' :: ' ' :: []) ++ ds ++ (' ' :: '1' :: []))) =
          ('p' :: ' ' :: 'c' :: 'n' :: 'f' :: ' ' :: []) ++ ds ++ (' ' :: '1' :: []) := by
        unfold stripCR
        rw [List.reverse_nil, List.nil_append]
        rw [show (('p' :: ' ' :: 'c' :: 'n' :: 'f' :: ' ' :: []) ++ ds ++
            (' ' :: '1' :: [])) =
            ((('p' :: ' ' :: 'c' :: 'n' :: 'f' :: ' ' :: []) ++ ds ++ [' ']) ++ ['1']) by
          simp]
        rw [List.getLast?_concat]
        rw [if_neg (by decide)]
      rw [hlast]
      rfl
    unfold dimacs_from_string
    rw [hlines]
    have hred1 : fromLinesGo true ⟨0, 0, [], [], 0⟩
        ((('p' :: ' ' :: 'c' :: 'n' :: 'f' :: ' ' :: []) ++ ds ++ (' ' :: '1' :: [])) ::
          [['1', ' ', '0']]) =
        match processPreludeLine
            (('p' :: ' ' :: 'c' :: 'n' :: 'f' :: ' ' :: []) ++ ds ++ (' ' :: '1' :: []))
            ⟨0, 0, [], [], 0⟩
            (splitWords (('p' :: ' ' :: 'c' :: 'n' :: 'f' :: ' ' :: []) ++ ds ++
              (' ' :: '1' :: []))) with
        | Except.error e => Except.error e
        | Except.ok (b, st') => fromLinesGo b st' [['1', ' ', '0']] := rfl
    rw [hred1]
    rw [splitWords_prelude_line ds hne hdg]
    have hred2 : processPreludeLine
        (('p' :: ' ' :: 'c' :: 'n' :: 'f' :: ' ' :: []) ++ ds ++ (' ' :: '1' :: []))
        ⟨0, 0, [], [], 0⟩ [['p'], ['c', 'n', 'f'], ds, ['1']] =
        match parseNat? ds with
        | none => Except.error (DimacsError.CannotParsePreludeLine
            (('p' :: ' ' :: 'c' :: 'n' :: 'f' :: ' ' :: []) ++ ds ++ (' ' :: '1' :: [])))
        | some nv => Except.ok (false, ⟨nv, 1, [], [], 0⟩) := rfl
    rw [hred2, hparse]
    show (if 1 = n then Except.ok [[lit1]]
        else Except.error (DimacsError.WrongNumberOfVariables n 1)) =
      Except.error (DimacsError.WrongNumberOfVariables n 1)
    rw [if_neg (fun h => hn1 h.symm)]
  · intro ds hne hdg hparse
    have hnl : ∀ c ∈ (('p' :: ' ' :: 'c' :: 'n' :: 'f' :: ' ' :: []) ++ ds ++
        (' ' :: '1' :: [])), c ≠ '\n' := by
      intro c hc
      simp only [List.append_assoc, List.mem_append, List.mem_cons,
        List.not_mem_nil, or_false] at hc
      rcases hc with hc | hc | hc
      · rcases hc with rfl | rfl | rfl | rfl | rfl | rfl <;> decide
      · exact ne_newline_of_digit (hdg c hc)
      · rcases hc with rfl | rfl <;> decide
    have hlines : splitLines (('p' :: ' ' :: 'c' :: 'n' :: 'f' :: ' ' :: []) ++ ds ++
        (' ' :: '1' :: '\n' :: '1' :: ' ' :: '0' :: [])) =
        (('p' :: ' ' :: 'c' :: 'n' :: 'f' :: ' ' :: []) ++ ds ++ (' ' :: '1' :: [])) ::
          [['1', ' ', '0']] := by
      have hsplit : (('p' :: ' ' :: 'c' :: 'n' :: 'f' :: ' ' :: []) ++ ds ++
          (' ' :: '1' :: '\n' :: '1' :: ' ' :: '0' :: [])) =
          ((('p' :: ' ' :: 'c' :: 'n' :: 'f' :: ' ' :: []) ++ ds ++ (' ' :: '1' :: [])) ++
            '\n' :: ('1' :: ' ' :: '0' :: [])) := by
        simp
      rw [hsplit]
      unfold splitLines
      rw [splitLinesGo_append_newline _ [] hnl]
      have hlast : stripCR ((List.reverse ([] : List Char)) ++
          (('p' :: ' ' :: 'c' :: 'n' :: 'f' :: ' ' :: []) ++ ds ++ (' ' :: '1' :: []))) =
          ('p' :: ' ' :: 'c' :: 'n' :: 'f' :: ' ' :: []) ++ ds ++ (' ' :: '1' :: []) := by
        unfold stripCR
        rw [List.reverse_nil, List.nil_append]
        rw [show (('p' :: ' ' :: 'c' :: 'n' :: 'f' :: ' ' :: []) ++ ds ++
            (' ' :: '1' :: [])) =
            ((('p' :: ' ' :: 'c' :: 'n' :: 'f' :: ' ' :: []) ++ ds ++ [' ']) ++ ['1']) by
          simp]
        rw [List.getLast?_concat]
        rw [if_neg (by decide)]
      rw [hlast]
      rfl
    unfold dimacs_from_string
    rw [hlines]
    have hred1 : fromLinesGo true ⟨0, 0, [], [], 0⟩
        ((('p' :: ' ' :: 'c' :: 'n' :: 'f' :: ' ' :: []) ++ ds ++ (' ' :: '1' :: [])) ::
          [['1', ' ', '0']]) =
        match processPreludeLine
            (('p' :: ' ' :: 'c' :: 'n' :: 'f' :: ' ' :: []) ++ ds ++ (' ' :: '1' :: []))
            ⟨0, 0, [], [], 0⟩
            (splitWords (('p' :: ' ' :: 'c' :: 'n' :: 'f' :: ' ' :: []) ++ ds ++
              (' ' :: '1' :: []))) with
        | Except.error e => Except.error e
        | Except.ok (b, st') => fromLinesGo b st' [['1', ' ', '0']] := rfl
    rw [hred1]
    rw [splitWords_prelude_line ds hne hdg]
    have hred2 : processPreludeLine
        (('p' :: ' ' :: 'c' :: 'n' :: 'f' :: ' ' :: []) ++ ds ++ (' ' :: '1' :: []))
        ⟨0, 0, [], [], 0⟩ [['p'], ['c', 'n', 'f'], ds, ['1']] =
        match parseNat? ds with
        | none => Except.error (DimacsError.CannotParsePreludeLine
            (('p' :: ' ' :: 'c' :: 'n' :: 'f' :: ' ' :: []) ++ ds ++ (' ' :: '1' :: [])))
        | some nv => Except.ok (false, ⟨nv, 1, [], [], 0⟩) := rfl
    rw [hred2, hparse]
  · decide

/-- Witness for the amended C8 theorem: declared count 3 against maximum
literal 1, and a declared count one above `usize::MAX`. -/
theorem C8_parse_fails_amended_witness :
    dimacs_from_string (('p' :: ' ' :: 'c' :: 'n' :: 'f' :: ' ' :: []) ++ ['3'] ++
        (' ' :: '1' :: '\n' :: '1' :: ' ' :: '0' :: [])) =
      Except.error (DimacsError.WrongNumberOfVariables 3 1) ∧
    dimacs_from_string (('p' :: ' ' :: 'c' :: 'n' :: 'f' :: ' ' :: []) ++
        "18446744073709551616".toList ++
        (' ' :: '1' :: '\n' :: '1' :: ' ' :: '0' :: [])) =
      Except.error (DimacsError.CannotParsePreludeLine
        (('p' :: ' ' :: 'c' :: 'n' :: 'f' :: ' ' :: []) ++
          "18446744073709551616".toList ++ (' ' :: '1' :: []))) :=
  ⟨C8_parse_fails_amended.1 ['3'] 3 (by decide) (by decide) (by decide) (by decide),
   C8_parse_fails_amended.2.1 "18446744073709551616".toList (by decide) (by decide)
     (by decide)⟩

/-! ### The EUF theory (`src/smt/euf.rs`)

`BTreeMap<EUFTerm, BTreeSet<EUFTerm>>` becomes a list of pairs (the edge
relation); `BTreeSet<(EUFTerm, EUFTerm)>` a list of pairs.  Iteration
order differs from the sorted order of a B-tree, which is unobservable
through the boolean queries verified here. -/

/-- An EUF term: an atom or a function application (`EUFTerm`). -/
inductive EUFTerm : Type
  | Atom (n : Nat)
  | Application (function_atom : Nat) (parameters : List EUFTerm)

mutual

def eufTermDecEq : (a b : EUFTerm) → Decidable (a = b)
  | EUFTerm.Atom n, EUFTerm.Atom m =>
    if h : n = m then Decidable.isTrue (by rw [h])
    else Decidable.isFalse (fun hh => by cases hh; exact h rfl)
  | EUFTerm.Atom _, EUFTerm.Application _ _ => Decidable.isFalse (fun hh => by cases hh)
  | EUFTerm.Application _ _, EUFTerm.Atom _ => Decidable.isFalse (fun hh => by cases hh)
  | EUFTerm.Application f ps, EUFTerm.Application g qs =>
    if h : f = g then
      match eufTermListDecEq ps qs with
      | Decidable.isTrue hl => Decidable.isTrue (by rw [h, hl])
      | Decidable.isFalse hl => Decidable.isFalse (fun hh => by cases hh; exact hl rfl)
    else Decidable.isFalse (fun hh => by cases hh; exact h rfl)

def eufTermListDecEq : (ps qs : List EUFTerm) → Decidable (ps = qs)
  | [], [] => Decidable.isTrue rfl
  | [], _ :: _ => Decidable.isFalse (fun hh => by cases hh)
  | _ :: _, [] => Decidable.isFalse (fun hh => by cases hh)
  | p :: ps, q :: qs =>
    match eufTermDecEq p q with
    | Decidable.isTrue h1 =>
      match eufTermListDecEq ps qs with
      | Decidable.isTrue h2 => Decidable.isTrue (by rw [h1, h2])
      | Decidable.isFalse h2 =>
        Decidable.isFalse (fun hh => by injection hh with hh1 hh2; exact h2 hh2)
    | Decidable.isFalse h1 =>
      Decidable.isFalse (fun hh => by injection hh with hh1 hh2; exact h1 hh1)

end

instance : DecidableEq EUFTerm := eufTermDecEq

/-- An EUF literal: an (in)equality between two terms (`EUFLiteral`). -/
structure EUFLiteral : Type where
  is_equality : Bool
  left : EUFTerm
  right : EUFTerm
deriving DecidableEq

/-- `EUFLiteral::new`: an equality literal. -/
def EUFLiteral.new (left right : EUFTerm) : EUFLiteral :=
  ⟨true, left, right⟩

/-- The symmetric neighbour map `E` as an edge list: `rel.get(t)` is the
list of second components of pairs keyed `t`. -/
def neighbors (rel : List (EUFTerm × EUFTerm)) (t : EUFTerm) : List EUFTerm :=
  rel.filterMap (fun p => if p.1 = t then some p.2 else none)

/-- The vertices mentioned by the edge list. -/
def relUniverse (rel : List (EUFTerm × EUFTerm)) : Finset EUFTerm :=
  (rel.map Prod.fst ++ rel.map Prod.snd).toFinset

theorem mem_neighbors_iff {rel : List (EUFTerm × EUFTerm)} {t c : EUFTerm} :
    c ∈ neighbors rel t ↔ (t, c) ∈ rel := by
  unfold neighbors
  rw [List.mem_filterMap]
  constructor
  · rintro ⟨⟨x, y⟩, hmem, hx⟩
    by_cases h : x = t
    · rw [if_pos h] at hx
      injection hx with hx
      rw [← h, ← hx]
      exact hmem
    · rw [if_neg h] at hx
      cases hx
  · intro hmem
    exact ⟨(t, c), hmem, by rw [if_pos rfl]⟩

theorem neighbors_ne_nil_mem_univ {rel : List (EUFTerm × EUFTerm)} {t : EUFTerm}
    (h : neighbors rel t ≠ []) : t ∈ relUniverse rel := by
  rcases hn : neighbors rel t with _ | ⟨c, cs⟩
  · exact absurd hn h
  · have hc : c ∈ neighbors rel t := by rw [hn]; exact List.mem_cons_self _ _
    have := mem_neighbors_iff.mp hc
    unfold relUniverse
    rw [List.mem_toFinset, List.mem_append]
    exact Or.inl (List.mem_map.mpr ⟨(t, c), this, rfl⟩)

/-- The graph search of `are_equal`: a stack-based worklist (`todo` pops
and pushes at the head, as the Rust `Vec` does at the tail), with a `seen`
set.  Processing a seen vertex is skipped (re-processing it pushes only
duplicates and cannot observe `right`, which is never inserted in `seen`). -/
def bfs (rel : List (EUFTerm × EUFTerm)) (right : EUFTerm) :
    List EUFTerm → Finset EUFTerm → Bool
  | [], _ => false
  | next :: todo, seen =>
    if next ∈ seen then bfs rel right todo seen
    else
      if right ∈ neighbors rel next ∧ right ∉ seen then true
      else
        bfs rel right
          (((neighbors rel next).filter (fun c => c ∉ seen)).reverse ++ todo)
          (insert next seen)
termination_by todo seen => (((relUniverse rel) \ seen).card, todo.length)
decreasing_by
  · apply Prod.Lex.right
    simp
  · rename_i hseen hfound
    by_cases hu : next ∈ relUniverse rel
    · apply Prod.Lex.left
      apply Finset.card_lt_card
      constructor
      · intro x hx
        rw [Finset.mem_sdiff] at hx ⊢
        refine ⟨hx.1, fun hmem => hx.2 (Finset.mem_insert_of_mem hmem)⟩
      · intro hsub
        have hin : next ∈ relUniverse rel \ seen := Finset.mem_sdiff.mpr ⟨hu, hseen⟩
        have := hsub hin
        rw [Finset.mem_sdiff] at this
        exact this.2 (Finset.mem_insert_self _ _)
    · have hnb : neighbors rel next = [] := by
        by_contra hne
        exact hu (neighbors_ne_nil_mem_univ hne)
      rw [hnb]
      have hcard : ((relUniverse rel) \ insert next seen).card =
          ((relUniverse rel) \ seen).card := by
        congr 1
        ext x
        rw [Finset.mem_sdiff, Finset.mem_sdiff, Finset.mem_insert]
        constructor
        · rintro ⟨h1, h2⟩
          exact ⟨h1, fun hm => h2 (Or.inr hm)⟩
        · rintro ⟨h1, h2⟩
          refine ⟨h1, ?_⟩
          rintro (rfl | hm)
          · exact hu h1
          · exact h2 hm
      rw [hcard]
      apply Prod.Lex.right
      simp

/-- `are_equal` from `src/smt/euf.rs`: structural equality, or a path in
the symmetric neighbour map found by graph search. -/
def are_equal (rel : List (EUFTerm × EUFTerm)) (left right : EUFTerm) : Bool :=
  if left = right then true
  else bfs rel right [left] ∅

/-- Declarative reachability in the edge list `E` (the specification's
"a path from a to b exists in E"). -/
def Reaches (rel : List (EUFTerm × EUFTerm)) (a b : EUFTerm) : Prop :=
  Relation.ReflTransGen (fun x y => (x, y) ∈ rel) a b

theorem bfs_sound {rel : List (EUFTerm × EUFTerm)} {right left : EUFTerm} :
    ∀ (todo : List EUFTerm) (seen : Finset EUFTerm),
      (∀ t ∈ todo, Reaches rel left t) → (∀ s ∈ seen, Reaches rel left s) →
      bfs rel right todo seen = true → Reaches rel left right := by
  intro todo seen
  induction todo, seen using bfs.induct rel right with
  | case1 seen =>
    intro _ _ h
    rw [bfs] at h
    cases h
  | case2 next todo seen hseen ih =>
    intro htodo hseenR h
    rw [bfs, if_pos hseen] at h
    exact ih (fun t ht => htodo t (List.mem_cons_of_mem _ ht)) hseenR h
  | case3 next todo seen hseen hfound =>
    intro htodo _ _
    have hnext : Reaches rel left next := htodo next (List.mem_cons_self _ _)
    exact Relation.ReflTransGen.tail hnext (mem_neighbors_iff.mp hfound.1)
  | case4 next todo seen hseen hfound ih =>
    intro htodo hseenR h
    rw [bfs, if_neg hseen, if_neg hfound] at h
    have hnext : Reaches rel left next := htodo next (List.mem_cons_self _ _)
    apply ih ?_ ?_ h
    · intro t ht
      rcases List.mem_append.mp ht with ht | ht
      · rw [List.mem_reverse] at ht
        have := (List.mem_filter.mp ht).1
        exact Relation.ReflTransGen.tail hnext (mem_neighbors_iff.mp this)
      · exact htodo t (List.mem_cons_of_mem _ ht)
    · intro s hs
      rcases Finset.mem_insert.mp hs with rfl | hs
      · exact hnext
      · exact hseenR s hs

theorem reach_of_closed {rel : List (EUFTerm × EUFTerm)} {S : Finset EUFTerm}
    {right : EUFTerm}
    (hclosed : ∀ s ∈ S, ∀ c, (s, c) ∈ rel → c ∈ S) (hright : right ∉ S) :
    ∀ x ∈ S, ¬ Reaches rel x right := by
  intro x hx hreach
  induction hreach using Relation.ReflTransGen.head_induction_on with
  | refl => exact hright hx
  | head hstep _ ih => exact ih (hclosed _ hx _ hstep)

theorem bfs_complete {rel : List (EUFTerm × EUFTerm)} {right : EUFTerm} :
    ∀ (todo : List EUFTerm) (seen : Finset EUFTerm),
      bfs rel right todo seen = false →
      (∀ s ∈ seen, ∀ c, (s, c) ∈ rel → c ∈ seen ∨ c ∈ todo) →
      right ∉ seen → right ∉ todo →
      ∀ x, (x ∈ todo ∨ x ∈ seen) → ¬ Reaches rel x right := by
  intro todo seen
  induction todo, seen using bfs.induct rel right with
  | case1 seen =>
    intro _ hclosed hrseen _ x hx
    rcases hx with hx | hx
    · cases hx
    · exact reach_of_closed
        (fun s hs c hc => (hclosed s hs c hc).resolve_right (fun h => by cases h))
        hrseen x hx
  | case2 next todo seen hseen ih =>
    intro h hclosed hrseen hrtodo x hx
    rw [bfs, if_pos hseen] at h
    apply ih h ?_ hrseen (fun hm => hrtodo (List.mem_cons_of_mem _ hm)) x
    · rcases hx with hx | hx
      · rcases List.mem_cons.mp hx with rfl | hx
        · exact Or.inr hseen
        · exact Or.inl hx
      · exact Or.inr hx
    · intro s hs c hc
      rcases hclosed s hs c hc with hm | hm
      · exact Or.inl hm
      · rcases List.mem_cons.mp hm with rfl | hm
        · exact Or.inl hseen
        · exact Or.inr hm
  | case3 next todo seen hseen hfound =>
    intro h _ _ _
    rw [bfs, if_neg hseen, if_pos hfound] at h
    cases h
  | case4 next todo seen hseen hfound ih =>
    intro h hclosed hrseen hrtodo x hx
    rw [bfs, if_neg hseen, if_neg hfound] at h
    have hrnext : right ≠ next := fun he =>
      hrtodo (he ▸ List.mem_cons_self next todo)
    have hrseen' : right ∉ insert next seen := by
      rw [Finset.mem_insert]
      rintro (he | hm)
      · exact hrnext he
      · exact hrseen hm
    have hrtodo' : right ∉
        ((neighbors rel next).filter (fun c => c ∉ seen)).reverse ++ todo := by
      rw [List.mem_append, List.mem_reverse]
      rintro (hm | hm)
      · have := List.mem_filter.mp hm
        exact hfound ⟨this.1, by simpa using this.2⟩
      · exact hrtodo (List.mem_cons_of_mem _ hm)
    apply ih h ?_ hrseen' hrtodo' x
    · rcases hx with hx | hx
      · rcases List.mem_cons.mp hx with rfl | hx
        · exact Or.inr (Finset.mem_insert_self _ _)
        · exact Or.inl (List.mem_append_right _ hx)
      · exact Or.inr (Finset.mem_insert_of_mem hx)
    · intro s hs c hc
      rcases Finset.mem_insert.mp hs with rfl | hs
      · by_cases hcs : c ∈ seen
        · exact Or.inl (Finset.mem_insert_of_mem hcs)
        · refine Or.inr (List.mem_append_left _ ?_)
          rw [List.mem_reverse]
          exact List.mem_filter.mpr ⟨mem_neighbors_iff.mpr hc, by simpa using hcs⟩
      · rcases hclosed s hs c hc with hm | hm
        · exact Or.inl (Finset.mem_insert_of_mem hm)
        · rcases List.mem_cons.mp hm with rfl | hm
          · exact Or.inl (Finset.mem_insert_self _ _)
          · exact Or.inr (List.mem_append_right _ hm)

/-- The search in `are_equal` computes exactly reachability in `E`. -/
theorem are_equal_iff_reaches (rel : List (EUFTerm × EUFTerm))
    (left right : EUFTerm) :
    are_equal rel left right = true ↔ Reaches rel left right := by
  unfold are_equal
  by_cases heq : left = right
  · subst heq
    simp only [if_pos rfl]
    constructor
    · intro _; exact Relation.ReflTransGen.refl
    · intro _; rfl
  · rw [if_neg heq]
    constructor
    · intro h
      exact bfs_sound [left] ∅
        (fun t ht => by
          rcases List.mem_cons.mp ht with rfl | ht
          · exact Relation.ReflTransGen.refl
          · cases ht)
        (fun s hs => by cases hs) h
    · intro hreach
      cases hbfs : bfs rel right [left] ∅ with
      | true => rfl
      | false =>
        exact absurd hreach
          (bfs_complete [left] ∅ hbfs (fun s hs => by cases hs)
            (by simp) (by simpa using fun he => heq he.symm) left
            (Or.inl (List.mem_singleton_self _)))

theorem are_equal_refl (rel : List (EUFTerm × EUFTerm)) (t : EUFTerm) :
    are_equal rel t t = true := by
  unfold are_equal
  rw [if_pos rfl]

theorem are_equal_trans {rel : List (EUFTerm × EUFTerm)} {a b c : EUFTerm}
    (h1 : are_equal rel a b = true) (h2 : are_equal rel b c = true) :
    are_equal rel a c = true := by
  rw [are_equal_iff_reaches] at h1 h2 ⊢
  exact Relation.ReflTransGen.trans h1 h2

/-- A symmetric edge list. -/
def SymmRel (rel : List (EUFTerm × EUFTerm)) : Prop :=
  ∀ a b, (a, b) ∈ rel → (b, a) ∈ rel

theorem reaches_symm {rel : List (EUFTerm × EUFTerm)} (hsym : SymmRel rel)
    {a b : EUFTerm} (h : Reaches rel a b) : Reaches rel b a := by
  induction h with
  | refl => exact Relation.ReflTransGen.refl
  | tail _ hstep ih =>
    exact Relation.ReflTransGen.head (hsym _ _ hstep) ih

theorem are_equal_symm {rel : List (EUFTerm × EUFTerm)} (hsym : SymmRel rel)
    {a b : EUFTerm} (h : are_equal rel a b = true) :
    are_equal rel b a = true := by
  rw [are_equal_iff_reaches] at h ⊢
  exact reaches_symm hsym h

theorem are_equal_mono {rel rel' : List (EUFTerm × EUFTerm)}
    (hsub : ∀ x ∈ rel, x ∈ rel') {a b : EUFTerm}
    (h : are_equal rel a b = true) : are_equal rel' a b = true := by
  rw [are_equal_iff_reaches] at h ⊢
  exact Relation.ReflTransGen.mono (fun x y hxy => hsub (x, y) hxy) h

theorem eufTerm_sizeOf_pos (t : EUFTerm) : 0 < sizeOf t := by
  cases t <;> simp +arith

theorem sizeOf_lt_of_mem_params {p : EUFTerm} {f : Nat} {ps : List EUFTerm}
    (h : p ∈ ps) : sizeOf p < sizeOf (EUFTerm.Application f ps) := by
  have := List.sizeOf_lt_of_mem h
  simp only [EUFTerm.Application.sizeOf_spec]
  omega

mutual

/-- An executable size measure on terms. -/
def termSize : EUFTerm → Nat
  | EUFTerm.Atom _ => 1
  | EUFTerm.Application _ ps => 1 + termSizeList ps

/-- The summed size of a parameter list. -/
def termSizeList : List EUFTerm → Nat
  | [] => 0
  | p :: ps => termSize p + termSizeList ps

end

theorem termSize_pos (t : EUFTerm) : 0 < termSize t := by
  cases t <;> simp +arith [termSize]

theorem termSize_le_of_mem {p : EUFTerm} {ps : List EUFTerm} (h : p ∈ ps) :
    termSize p ≤ termSizeList ps := by
  induction ps with
  | nil => cases h
  | cons q ps ih =>
    rcases List.mem_cons.mp h with rfl | h
    · simp [termSizeList]
    · have := ih h
      simp only [termSizeList]
      omega

theorem termSize_lt_of_mem_params {p : EUFTerm} {f : Nat} {ps : List EUFTerm}
    (h : p ∈ ps) : termSize p < termSize (EUFTerm.Application f ps) := by
  have := termSize_le_of_mem h
  simp only [termSize]
  omega

/-- The well-formedness of the superterm index: every recorded parent is an
application listed as a key, containing the child among its parameters,
and every child is a key. -/
def STInv (keys : List EUFTerm) (parents : List (EUFTerm × EUFTerm)) : Prop :=
  ∀ c p, (c, p) ∈ parents → c ∈ keys ∧ p ∈ keys ∧
    ∃ f ps, p = EUFTerm.Application f ps ∧ c ∈ ps

/-- The recursion `go` of `compute_superterms`: record an entry for the
term; for an application, record each parameter's edge to it and recurse.
The accumulator holds the key list and the child/parent edge list. -/
def goST (acc : List EUFTerm × List (EUFTerm × EUFTerm)) (t : EUFTerm) :
    List EUFTerm × List (EUFTerm × EUFTerm) :=
  let acc1 := (acc.1 ++ [t], acc.2)
  match t with
  | EUFTerm.Atom _ => acc1
  | EUFTerm.Application f ps =>
    ps.attach.foldl (fun a pp => goST (a.1 ++ [pp.1], a.2 ++ [(pp.1, t)]) pp.1) acc1
termination_by sizeOf t
decreasing_by
  have := List.sizeOf_lt_of_mem pp.2
  simp only [EUFTerm.Application.sizeOf_spec]
  omega

theorem goST_atom (acc : List EUFTerm × List (EUFTerm × EUFTerm)) (k : Nat) :
    goST acc (EUFTerm.Atom k) = (acc.1 ++ [EUFTerm.Atom k], acc.2) := by
  rw [goST]

theorem goST_app (acc : List EUFTerm × List (EUFTerm × EUFTerm)) (f : Nat)
    (ps : List EUFTerm) :
    goST acc (EUFTerm.Application f ps) =
      ps.attach.foldl
        (fun a pp => goST (a.1 ++ [pp.1], a.2 ++ [(pp.1, EUFTerm.Application f ps)]) pp.1)
        (acc.1 ++ [EUFTerm.Application f ps], acc.2) := by
  rw [goST]

theorem goST_facts : ∀ (n : Nat) (t : EUFTerm), sizeOf t ≤ n →
    ∀ acc : List EUFTerm × List (EUFTerm × EUFTerm),
      (∀ x ∈ acc.1, x ∈ (goST acc t).1) ∧ (∀ x ∈ acc.2, x ∈ (goST acc t).2) ∧
      (STInv acc.1 acc.2 → STInv (goST acc t).1 (goST acc t).2) := by
  intro n
  induction n with
  | zero =>
    intro t hle
    exact absurd hle (by have := eufTerm_sizeOf_pos t; omega)
  | succ n ihn =>
    intro t hle acc
    cases t with
    | Atom k =>
      rw [goST_atom]
      refine ⟨fun x hx => List.mem_append_left _ hx, fun x hx => hx, ?_⟩
      intro hinv c p hcp
      obtain ⟨h1, h2, h3⟩ := hinv c p hcp
      exact ⟨List.mem_append_left _ h1, List.mem_append_left _ h2, h3⟩
    | Application f ps =>
      rw [goST_app]
      have haux : ∀ (prs : List {x // x ∈ ps}) (a : List EUFTerm × List (EUFTerm × EUFTerm)),
          (∀ x ∈ a.1, x ∈ (prs.foldl
            (fun a pp => goST (a.1 ++ [pp.1], a.2 ++ [(pp.1, EUFTerm.Application f ps)]) pp.1)
            a).1) ∧
          (∀ x ∈ a.2, x ∈ (prs.foldl
            (fun a pp => goST (a.1 ++ [pp.1], a.2 ++ [(pp.1, EUFTerm.Application f ps)]) pp.1)
            a).2) ∧
          (EUFTerm.Application f ps ∈ a.1 → STInv a.1 a.2 →
            STInv (prs.foldl
              (fun a pp => goST (a.1 ++ [pp.1], a.2 ++ [(pp.1, EUFTerm.Application f ps)]) pp.1)
              a).1
            (prs.foldl
              (fun a pp => goST (a.1 ++ [pp.1], a.2 ++ [(pp.1, EUFTerm.Application f ps)]) pp.1)
              a).2) := by
        intro prs
        induction prs with
        | nil =>
          intro a
          exact ⟨fun x hx => hx, fun x hx => hx, fun _ h => h⟩
        | cons pp prs ihp =>
          intro a
          have hppsize : sizeOf pp.1 ≤ n := by
            have h1 := sizeOf_lt_of_mem_params (f := f) pp.2
            simp only [EUFTerm.Application.sizeOf_spec] at hle h1
            omega
          have hgo := ihn pp.1 hppsize
            (a.1 ++ [pp.1], a.2 ++ [(pp.1, EUFTerm.Application f ps)])
          have hfold := ihp
            (goST (a.1 ++ [pp.1], a.2 ++ [(pp.1, EUFTerm.Application f ps)]) pp.1)
          refine ⟨?_, ?_, ?_⟩
          · intro x hx
            exact hfold.1 x (hgo.1 x (List.mem_append_left _ hx))
          · intro x hx
            exact hfold.2.1 x (hgo.2.1 x (List.mem_append_left _ hx))
          · intro hself hinv
            apply hfold.2.2
            · exact hgo.1 _ (List.mem_append_left _ hself)
            · apply hgo.2.2
              intro c p hcp
              rcases List.mem_append.mp hcp with hcp | hcp
              · obtain ⟨h1, h2, h3⟩ := hinv c p hcp
                exact ⟨List.mem_append_left _ h1, List.mem_append_left _ h2, h3⟩
              · rw [List.mem_singleton] at hcp
                injection hcp with hc hp
                subst hc
                subst hp
                exact ⟨List.mem_append_right _ (List.mem_singleton_self _),
                  List.mem_append_left _ hself, f, ps, rfl, pp.2⟩
      have h := haux ps.attach (acc.1 ++ [EUFTerm.Application f ps], acc.2)
      refine ⟨?_, ?_, ?_⟩
      · intro x hx
        exact h.1 x (List.mem_append_left _ hx)
      · intro x hx
        exact h.2.1 x hx
      · intro hinv
        apply h.2.2 (List.mem_append_right _ (List.mem_singleton_self _))
        intro c p hcp
        obtain ⟨h1, h2, h3⟩ := hinv c p hcp
        exact ⟨List.mem_append_left _ h1, List.mem_append_left _ h2, h3⟩


/-- The superterm index with its well-formedness evidence. -/
structure Superterms : Type where
  keys : List EUFTerm
  parents : List (EUFTerm × EUFTerm)
  hinv : STInv keys parents

/-- The accumulator pass of `compute_superterms` over the literal list. -/
def computeSupertermsAcc (lits : List EUFLiteral) :
    List EUFTerm × List (EUFTerm × EUFTerm) :=
  lits.foldl (fun a lit => goST (goST a lit.left) lit.right) ([], [])

theorem computeSupertermsAcc_inv (lits : List EUFLiteral) :
    STInv (computeSupertermsAcc lits).1 (computeSupertermsAcc lits).2 := by
  unfold computeSupertermsAcc
  have haux : ∀ (ls : List EUFLiteral) (a : List EUFTerm × List (EUFTerm × EUFTerm)),
      STInv a.1 a.2 →
      STInv (ls.foldl (fun a lit => goST (goST a lit.left) lit.right) a).1
        (ls.foldl (fun a lit => goST (goST a lit.left) lit.right) a).2 := by
    intro ls
    induction ls with
    | nil => intro a h; exact h
    | cons lit ls ih =>
      intro a h
      apply ih
      exact (goST_facts _ lit.right le_rfl _).2.2
        ((goST_facts _ lit.left le_rfl _).2.2 h)
  exact haux lits ([], []) (fun c p h => by cases h)

/-- `compute_superterms` from `src/smt/euf.rs`. -/
def computeSuperterms (lits : List EUFLiteral) : Superterms :=
  ⟨(computeSupertermsAcc lits).1, (computeSupertermsAcc lits).2,
    computeSupertermsAcc_inv lits⟩

/-- The largest size of a term in the index; bounds the congruence-rewrite
recursion of `add_equiv`. -/
def maxKeySize (st : Superterms) : Nat :=
  (st.keys.map (fun t => termSize t)).foldr Nat.max 0

theorem le_foldr_max : ∀ (l : List Nat), ∀ x ∈ l, x ≤ l.foldr Nat.max 0 := by
  intro l
  induction l with
  | nil => intro x hx; cases hx
  | cons y l ih =>
    intro x hx
    rcases List.mem_cons.mp hx with rfl | hx
    · exact Nat.le_max_left _ _
    · exact le_trans (ih x hx) (Nat.le_max_right _ _)

theorem termSize_le_maxKeySize {st : Superterms} {t : EUFTerm}
    (h : t ∈ st.keys) : termSize t ≤ maxKeySize st :=
  le_foldr_max _ _ (List.mem_map.mpr ⟨t, h, rfl⟩)

/-- The subset enumeration of `go` in `add_equiv`: all ways of replacing a
(possibly empty) subset of the occurrences of `term` among the parameters
by `equiv`, replaced-first, together with whether anything changed. -/
def rewriteParams (term equiv : EUFTerm) : List EUFTerm → List (List EUFTerm × Bool)
  | [] => [([], false)]
  | p :: ps =>
    let rest := rewriteParams term equiv ps
    (if p = term then rest.map (fun r => (equiv :: r.1, true)) else []) ++
      rest.map (fun r => (p :: r.1, r.2))

theorem rewriteParams_changed_mem {term equiv : EUFTerm} {ys : List EUFTerm} :
    ∀ {ps : List EUFTerm}, (ys, true) ∈ rewriteParams term equiv ps → equiv ∈ ys := by
  intro ps
  induction ps generalizing ys with
  | nil =>
    intro h
    rcases List.mem_singleton.mp h with h
    injection h with h1 h2
    cases h2
  | cons p ps ih =>
    intro h
    unfold rewriteParams at h
    rcases List.mem_append.mp h with h | h
    · by_cases hp : p = term
      · rw [if_pos hp] at h
        obtain ⟨r, hr, heq⟩ := List.mem_map.mp h
        injection heq with h1 h2
        rw [← h1]
        exact List.mem_cons_self _ _
      · rw [if_neg hp] at h
        cases h
    · obtain ⟨r, hr, heq⟩ := List.mem_map.mp h
      injection heq with h1 h2
      have : r = (r.1, true) := by
        rw [← h2]
      rw [this] at hr
      have := ih hr
      rw [← h1]
      exact List.mem_cons_of_mem _ this

/-- The pairs of recursive `add_equiv` calls generated from one superterm
`s` of `term`: for every changed rewrite of its parameters whose result
exists in the index, the pair `(s, rewritten)`. -/
def pairsFromSuperterm (st : Superterms) (term equiv s : EUFTerm) :
    List (EUFTerm × EUFTerm) :=
  match s with
  | EUFTerm.Atom _ => []
  | EUFTerm.Application f ps =>
    (rewriteParams term equiv ps).filterMap (fun r =>
      if r.2 = true ∧ (EUFTerm.Application f r.1) ∈ st.keys then
        some (EUFTerm.Application f ps, EUFTerm.Application f r.1)
      else none)

/-- All recursive pairs of `add_equiv(left, right)`: from the superterms of
`left` (replacing `left` by `right`), then from those of `right`. -/
def collectPairs (st : Superterms) (left right : EUFTerm) :
    List (EUFTerm × EUFTerm) :=
  ((neighbors st.parents left).map (pairsFromSuperterm st left right)).flatten ++
    ((neighbors st.parents right).map (pairsFromSuperterm st right left)).flatten

theorem pairsFromSuperterm_spec {st : Superterms} {term equiv s : EUFTerm}
    {x : EUFTerm × EUFTerm} (h : x ∈ pairsFromSuperterm st term equiv s) :
    x.1 = s ∧ x.2 ∈ st.keys ∧ termSize equiv < termSize x.2 := by
  unfold pairsFromSuperterm at h
  cases s with
  | Atom _ => cases h
  | Application f ps =>
    obtain ⟨r, hr, heq⟩ := List.mem_filterMap.mp h
    by_cases hcond : r.2 = true ∧ (EUFTerm.Application f r.1) ∈ st.keys
    · rw [if_pos hcond] at heq
      injection heq with heq
      subst heq
      refine ⟨rfl, hcond.2, ?_⟩
      have hmem : (r.1, true) ∈ rewriteParams term equiv ps := by
        have : r = (r.1, true) := by
          rw [← hcond.1]
        rw [← this]
        exact hr
      exact termSize_lt_of_mem_params (rewriteParams_changed_mem hmem)
    · rw [if_neg hcond] at heq
      cases heq

theorem collectPairs_spec {st : Superterms} {left right : EUFTerm}
    {x : EUFTerm × EUFTerm} (h : x ∈ collectPairs st left right) :
    min (termSize left) (termSize right) < min (termSize x.1) (termSize x.2) ∧
    min (termSize left) (termSize right) ≤ maxKeySize st := by
  unfold collectPairs at h
  rcases List.mem_append.mp h with h | h <;>
  · obtain ⟨l', hl', hx⟩ := List.mem_flatten.mp h
    obtain ⟨s, hs, heq⟩ := List.mem_map.mp hl'
    subst heq
    obtain ⟨hx1, hx2keys, hszeq⟩ := pairsFromSuperterm_spec hx
    have hedge := mem_neighbors_iff.mp hs
    obtain ⟨hc, hpk, f, ps, hform, hcps⟩ := st.hinv _ _ hedge
    have hsz1 : termSize left < termSize x.1 ∨ termSize right < termSize x.1 := by
      subst hx1
      rw [hform]
      first
      | exact Or.inl (termSize_lt_of_mem_params hcps)
      | exact Or.inr (termSize_lt_of_mem_params hcps)
    have hsz2 : termSize right < termSize x.2 ∨ termSize left < termSize x.2 := by
      first
      | exact Or.inl hszeq
      | exact Or.inr hszeq
    have hkb : termSize left ≤ maxKeySize st ∨ termSize right ≤ maxKeySize st := by
      first
      | exact Or.inl (termSize_le_maxKeySize hc)
      | exact Or.inr (termSize_le_maxKeySize hc)
    constructor
    · omega
    · omega

/-- `add_equiv` from `src/smt/euf.rs`: insert both directions of the new
equivalence, then recursively add the congruence rewrites collected from
the superterm index (only rewrites that exist in the problem). -/
def add_equiv (st : Superterms) (rel : List (EUFTerm × EUFTerm))
    (left right : EUFTerm) : List (EUFTerm × EUFTerm) :=
  (collectPairs st left right).attach.foldl
    (fun acc pr => add_equiv st acc pr.1.1 pr.1.2)
    ((right, left) :: (left, right) :: rel)
termination_by (maxKeySize st + 1) - min (termSize left) (termSize right)
decreasing_by
  obtain ⟨hlt, hle⟩ := collectPairs_spec pr.2
  omega

theorem add_equiv_facts : ∀ (n : Nat) (st : Superterms) (left right : EUFTerm),
    (maxKeySize st + 1) - min (termSize left) (termSize right) ≤ n →
    ∀ rel,
      (∀ x ∈ rel, x ∈ add_equiv st rel left right) ∧
      (left, right) ∈ add_equiv st rel left right ∧
      (right, left) ∈ add_equiv st rel left right ∧
      (SymmRel rel → SymmRel (add_equiv st rel left right)) := by
  intro n
  induction n with
  | zero =>
    intro st l r hle rel
    cases hcp : collectPairs st l r with
    | nil =>
      have heq : add_equiv st rel l r = (r, l) :: (l, r) :: rel := by
        rw [add_equiv, hcp]
        rfl
      rw [heq]
      refine ⟨fun x hx => List.mem_cons_of_mem _ (List.mem_cons_of_mem _ hx),
        List.mem_cons_of_mem _ (List.mem_cons_self _ _),
        List.mem_cons_self _ _, ?_⟩
      intro hsym a b hab
      rcases List.mem_cons.mp hab with heq1 | hab
      · injection heq1 with h1 h2
        subst h1; subst h2
        exact List.mem_cons_of_mem _ (List.mem_cons_self _ _)
      · rcases List.mem_cons.mp hab with heq1 | hab
        · injection heq1 with h1 h2
          subst h1; subst h2
          exact List.mem_cons_self _ _
        · exact List.mem_cons_of_mem _ (List.mem_cons_of_mem _ (hsym a b hab))
    | cons x xs =>
      exfalso
      have hx : x ∈ collectPairs st l r := by rw [hcp]; exact List.mem_cons_self _ _
      obtain ⟨hlt, hble⟩ := collectPairs_spec hx
      omega
  | succ n ih =>
    intro st l r hle rel
    have haux : ∀ (prs : List {x // x ∈ collectPairs st l r})
        (acc : List (EUFTerm × EUFTerm)),
        (∀ x ∈ acc, x ∈ prs.foldl (fun acc pr => add_equiv st acc pr.1.1 pr.1.2) acc) ∧
        (SymmRel acc → SymmRel
          (prs.foldl (fun acc pr => add_equiv st acc pr.1.1 pr.1.2) acc)) := by
      intro prs
      induction prs with
      | nil => exact fun acc => ⟨fun x hx => hx, fun h => h⟩
      | cons pr prs ihp =>
        intro acc
        obtain ⟨hlt, hble⟩ := collectPairs_spec pr.2
        have hmeas : (maxKeySize st + 1) - min (termSize pr.1.1) (termSize pr.1.2) ≤ n := by
          omega
        have hone := ih st pr.1.1 pr.1.2 hmeas acc
        have hfold := ihp (add_equiv st acc pr.1.1 pr.1.2)
        refine ⟨?_, ?_⟩
        · intro x hx
          exact hfold.1 x (hone.1 x hx)
        · intro hsym
          exact hfold.2 (hone.2.2.2 hsym)
    have heq : add_equiv st rel l r =
        (collectPairs st l r).attach.foldl
          (fun acc pr => add_equiv st acc pr.1.1 pr.1.2)
          ((r, l) :: (l, r) :: rel) := by
      rw [add_equiv]
    rw [heq]
    have h := haux (collectPairs st l r).attach ((r, l) :: (l, r) :: rel)
    refine ⟨?_, ?_, ?_, ?_⟩
    · intro x hx
      exact h.1 x (List.mem_cons_of_mem _ (List.mem_cons_of_mem _ hx))
    · exact h.1 _ (List.mem_cons_of_mem _ (List.mem_cons_self _ _))
    · exact h.1 _ (List.mem_cons_self _ _)
    · intro hsym
      apply h.2
      intro a b hab
      rcases List.mem_cons.mp hab with heq1 | hab
      · injection heq1 with h1 h2
        subst h1; subst h2
        exact List.mem_cons_of_mem _ (List.mem_cons_self _ _)
      · rcases List.mem_cons.mp hab with heq1 | hab
        · injection heq1 with h1 h2
          subst h1; subst h2
          exact List.mem_cons_self _ _
        · exact List.mem_cons_of_mem _ (List.mem_cons_of_mem _ (hsym a b hab))

theorem add_equiv_subset {st : Superterms} {rel : List (EUFTerm × EUFTerm)}
    {left right : EUFTerm} : ∀ x ∈ rel, x ∈ add_equiv st rel left right :=
  (add_equiv_facts _ st left right le_rfl rel).1

theorem add_equiv_mem {st : Superterms} {rel : List (EUFTerm × EUFTerm)}
    {left right : EUFTerm} : (left, right) ∈ add_equiv st rel left right :=
  (add_equiv_facts _ st left right le_rfl rel).2.1

theorem add_equiv_symm {st : Superterms} {rel : List (EUFTerm × EUFTerm)}
    {left right : EUFTerm} (h : SymmRel rel) :
    SymmRel (add_equiv st rel left right) :=
  (add_equiv_facts _ st left right le_rfl rel).2.2.2 h

theorem length_filter_le_of_imp {α : Type} (L : List α) (p q : α → Bool)
    (h : ∀ x ∈ L, q x = true → p x = true) :
    (L.filter q).length ≤ (L.filter p).length := by
  induction L with
  | nil => exact le_rfl
  | cons y L ih =>
    have hL := ih (fun x hx => h x (List.mem_cons_of_mem _ hx))
    cases hqy : q y with
    | true =>
      have hpy := h y (List.mem_cons_self _ _) hqy
      simp only [List.filter_cons, hqy, hpy, if_pos]
      simpa using hL
    | false =>
      simp only [List.filter_cons, hqy]
      cases hpy : p y <;> simp <;> omega

theorem length_filter_lt_of_witness {α : Type} (L : List α) (p q : α → Bool)
    (h : ∀ x ∈ L, q x = true → p x = true) (x0 : α) (hx0 : x0 ∈ L)
    (hp : p x0 = true) (hq : q x0 = false) :
    (L.filter q).length < (L.filter p).length := by
  induction L with
  | nil => cases hx0
  | cons y L ih =>
    have hL := length_filter_le_of_imp L p q (fun x hx => h x (List.mem_cons_of_mem _ hx))
    rcases List.mem_cons.mp hx0 with rfl | hx0
    · simp only [List.filter_cons, hq, hp, if_pos]
      simp only [Bool.false_eq_true, if_false, List.length_cons]
      omega
    · have hlt := ih (fun x hx => h x (List.mem_cons_of_mem _ hx)) hx0
      simp only [List.filter_cons]
      cases hqy : q y with
      | true =>
        have hpy := h y (List.mem_cons_self _ _) hqy
        simp only [hpy, if_pos, List.length_cons]
        omega
      | false =>
        cases hpy : p y <;> simp <;> omega

theorem are_equal_of_mem {rel : List (EUFTerm × EUFTerm)} {a b : EUFTerm}
    (h : (a, b) ∈ rel) : are_equal rel a b = true := by
  rw [are_equal_iff_reaches]
  exact Relation.ReflTransGen.single h

theorem foldl_add_equiv_mem {st : Superterms} :
    ∀ (ls : List (EUFTerm × EUFTerm)) (acc : List (EUFTerm × EUFTerm)) (x : EUFTerm × EUFTerm),
      x ∈ acc → x ∈ ls.foldl (fun acc ab => add_equiv st acc ab.1 ab.2) acc := by
  intro ls
  induction ls with
  | nil => exact fun acc x hx => hx
  | cons ab ls ih =>
    intro acc x hx
    exact ih _ x (add_equiv_subset x hx)

/-- The function-equality scan of `infer_implicit_equalities`: all ordered
pairs of distinct application terms in the index with the same function
atom, the same arity, pointwise-equal parameters, and not yet equal. -/
def findNewEquivs (st : Superterms) (rel : List (EUFTerm × EUFTerm)) :
    List (EUFTerm × EUFTerm) :=
  (st.keys.map (fun a =>
    match a with
    | EUFTerm.Atom _ => []
    | EUFTerm.Application af aps =>
      st.keys.filterMap (fun b =>
        match b with
        | EUFTerm.Atom _ => none
        | EUFTerm.Application bf bps =>
          if a ≠ b ∧ af = bf ∧ aps.length = bps.length ∧
              are_equal rel a b = false ∧
              (aps.zip bps).all (fun pq => are_equal rel pq.1 pq.2) then
            some (a, b)
          else none))).flatten

theorem findNewEquivs_spec {st : Superterms} {rel : List (EUFTerm × EUFTerm)}
    {x : EUFTerm × EUFTerm} (h : x ∈ findNewEquivs st rel) :
    x.1 ∈ st.keys ∧ x.2 ∈ st.keys ∧ are_equal rel x.1 x.2 = false := by
  unfold findNewEquivs at h
  obtain ⟨l', hl', hx⟩ := List.mem_flatten.mp h
  obtain ⟨a, ha, heq⟩ := List.mem_map.mp hl'
  subst heq
  cases a with
  | Atom _ => cases hx
  | Application af aps =>
    obtain ⟨b, hb, hsome⟩ := List.mem_filterMap.mp hx
    cases b with
    | Atom _ => cases hsome
    | Application bf bps =>
      have hsome' : (if EUFTerm.Application af aps ≠ EUFTerm.Application bf bps ∧
            af = bf ∧ aps.length = bps.length ∧
            are_equal rel (EUFTerm.Application af aps) (EUFTerm.Application bf bps) = false ∧
            ((aps.zip bps).all fun pq => are_equal rel pq.1 pq.2) = true then
          some (EUFTerm.Application af aps, EUFTerm.Application bf bps)
        else none) = some x := hsome
      by_cases hcond : EUFTerm.Application af aps ≠ EUFTerm.Application bf bps ∧
          af = bf ∧ aps.length = bps.length ∧
          are_equal rel (EUFTerm.Application af aps) (EUFTerm.Application bf bps) = false ∧
          ((aps.zip bps).all fun pq => are_equal rel pq.1 pq.2) = true
      · rw [if_pos hcond] at hsome'
        injection hsome' with hsome'
        rw [← hsome']
        exact ⟨ha, hb, hcond.2.2.2.1⟩
      · rw [if_neg hcond] at hsome'
        cases hsome'

/-- The number of not-yet-equal ordered pairs of index terms: the
decreasing measure of the congruence-closure fixpoint. -/
def unequalCount (st : Superterms) (rel : List (EUFTerm × EUFTerm)) : Nat :=
  ((st.keys.product st.keys).filter (fun ab => !(are_equal rel ab.1 ab.2))).length

/-- `infer_implicit_equalities` from `src/smt/euf.rs`: repeat until no new
function equalities are found; add each collected pair via `add_equiv`. -/
def infer_implicit_equalities (st : Superterms)
    (rel : List (EUFTerm × EUFTerm)) : List (EUFTerm × EUFTerm) :=
  match hnews : findNewEquivs st rel with
  | [] => rel
  | n0 :: rest =>
    infer_implicit_equalities st
      ((n0 :: rest).foldl (fun acc ab => add_equiv st acc ab.1 ab.2) rel)
termination_by unequalCount st rel
decreasing_by
  have hn0 : n0 ∈ findNewEquivs st rel := by
    rw [hnews]
    exact List.mem_cons_self _ _
  obtain ⟨hk1, hk2, hne⟩ := findNewEquivs_spec hn0
  have hmem : (n0.1, n0.2) ∈
      (n0 :: rest).foldl (fun acc ab => add_equiv st acc ab.1 ab.2) rel :=
    foldl_add_equiv_mem rest _ _ add_equiv_mem
  have hsub : ∀ x ∈ rel, x ∈
      (n0 :: rest).foldl (fun acc ab => add_equiv st acc ab.1 ab.2) rel := by
    intro x hx
    exact foldl_add_equiv_mem rest _ x (add_equiv_subset x hx)
  apply length_filter_lt_of_witness _ _ _ ?_ n0
  · exact List.pair_mem_product.mpr ⟨hk1, hk2⟩
  · rw [hne]
    rfl
  · have := are_equal_of_mem hmem
    rw [this]
    rfl
  · intro x hx hq
    rw [Bool.not_eq_true'] at hq ⊢
    cases hrel : are_equal rel x.1 x.2 with
    | false => rfl
    | true =>
      have := are_equal_mono hsub hrel
      rw [this] at hq
      cases hq

/-- `are_unequal` from `src/smt/euf.rs`: two distinct terms are known
unequal when some asserted disequality pair is componentwise equal to
them, in either order. -/
def are_unequal (rel : List (EUFTerm × EUFTerm))
    (inequivs : List (EUFTerm × EUFTerm)) (left right : EUFTerm) : Bool :=
  if left = right then false
  else inequivs.any (fun ab =>
    (are_equal rel left ab.1 && are_equal rel right ab.2) ||
    (are_equal rel left ab.2 && are_equal rel right ab.1))

/-- The specification's `unequal(a,b)`: some pair in `D` whose components
are `E`-equal to `a` and `b` in either order. -/
def UnequalDecl (rel : List (EUFTerm × EUFTerm))
    (inequivs : List (EUFTerm × EUFTerm)) (a b : EUFTerm) : Prop :=
  ∃ xy ∈ inequivs, (Reaches rel a xy.1 ∧ Reaches rel b xy.2) ∨
    (Reaches rel a xy.2 ∧ Reaches rel b xy.1)

theorem are_unequal_iff (rel inequivs : List (EUFTerm × EUFTerm))
    (a b : EUFTerm) :
    are_unequal rel inequivs a b = true ↔
      a ≠ b ∧ UnequalDecl rel inequivs a b := by
  unfold are_unequal
  by_cases hab : a = b
  · rw [if_pos hab]
    constructor
    · intro h; cases h
    · rintro ⟨hne, _⟩; exact absurd hab hne
  · rw [if_neg hab]
    rw [List.any_eq_true]
    constructor
    · rintro ⟨xy, hxy, hcond⟩
      rcases Bool.or_eq_true_iff.mp hcond with hc | hc <;>
        obtain ⟨h1, h2⟩ := Bool.and_eq_true_iff.mp hc
      · exact ⟨hab, xy, hxy, Or.inl ⟨(are_equal_iff_reaches _ _ _).mp h1,
          (are_equal_iff_reaches _ _ _).mp h2⟩⟩
      · exact ⟨hab, xy, hxy, Or.inr ⟨(are_equal_iff_reaches _ _ _).mp h1,
          (are_equal_iff_reaches _ _ _).mp h2⟩⟩
    · rintro ⟨_, xy, hxy, hcase⟩
      refine ⟨xy, hxy, ?_⟩
      rw [Bool.or_eq_true_iff]
      rcases hcase with ⟨h1, h2⟩ | ⟨h1, h2⟩
      · exact Or.inl (Bool.and_eq_true_iff.mpr
          ⟨(are_equal_iff_reaches _ _ _).mpr h1, (are_equal_iff_reaches _ _ _).mpr h2⟩)
      · exact Or.inr (Bool.and_eq_true_iff.mpr
          ⟨(are_equal_iff_reaches _ _ _).mpr h1, (are_equal_iff_reaches _ _ _).mpr h2⟩)

/-- The EUF theory state (`struct EUF`). -/
structure EUF : Type where
  lits : List EUFLiteral
  superterms : Superterms
  equivs : List (EUFTerm × EUFTerm)
  inequivs : List (EUFTerm × EUFTerm)

/-- `EUF::new`: build the superterm index, with empty `E` and `D`. -/
def EUF.new (lits : List EUFLiteral) : EUF :=
  ⟨lits, computeSuperterms lits, [], []⟩

/-- `EUF::to_euf_lit`: look up `lits[get_id - 1]` (an out-of-bounds index
panics in the source, modelled as `none`), flipping the equality for a
negated model literal. -/
def EUF.to_euf_lit (e : EUF) (model_lit : Literal) : Option EUFLiteral :=
  match e.lits.get? (model_lit.get_id - 1) with
  | none => none
  | some el =>
    some (if model_lit.is_negated then
      ⟨!el.is_equality, el.left, el.right⟩ else el)

/-- The outcome of `EUF::decide`: a truth value decision or the `panic!`
on a contradictory state (or an out-of-bounds binding). -/
inductive DecideResult : Type
  | ok (r : Option Bool)
  | fatal
deriving DecidableEq

/-- `EUF::decide` from `src/smt/euf.rs`. -/
def EUF.decide (e : EUF) (model_lit : Literal) : DecideResult :=
  match e.to_euf_lit model_lit with
  | none => DecideResult.fatal
  | some el =>
    if el.left = el.right then DecideResult.ok (some el.is_equality)
    else
      match el.is_equality, are_equal e.equivs el.left el.right,
          are_unequal e.equivs e.inequivs el.left el.right with
      | true, true, false => DecideResult.ok (some true)
      | true, false, true => DecideResult.ok (some false)
      | false, true, false => DecideResult.ok (some false)
      | false, false, true => DecideResult.ok (some true)
      | _, true, true => DecideResult.fatal
      | _, false, false => DecideResult.ok none

/-- `EUF::incorporate` from `src/smt/euf.rs` (`none` models the panics:
out-of-bounds binding, or a disequality `a ≠ a`).  After a new equivalence
or disequality the congruence-closure fixpoint runs; an equality between
structurally equal terms returns early. -/
def EUF.incorporate (e : EUF) (model_lit : Literal) : Option EUF :=
  match e.to_euf_lit model_lit with
  | none => none
  | some el =>
    if el.is_equality then
      if el.left = el.right then some e
      else
        some { e with
          equivs := infer_implicit_equalities e.superterms
            (add_equiv e.superterms e.equivs el.left el.right) }
    else
      if el.left = el.right then none
      else some { e with
        inequivs := e.inequivs ++ [(el.left, el.right)],
        equivs := infer_implicit_equalities e.superterms e.equivs }

/-- `EUF::forget`: replace `E` and `D` with empty containers; the index
and literal binding are untouched. -/
def EUF.forget (e : EUF) : EUF :=
  { e with equivs := [], inequivs := [] }

/-- C3: `EUF::decide` implements the specified decision table.  For a model
literal translating to the EUF literal `(eq?, a, b)`: structurally equal
sides immediately give `Some(eq?)`; otherwise, with `e` the reachability
of `b` from `a` in `E` and `u` the existence of a pair in `D` whose
components are `E`-equal to `a` and `b` in either order, the result is
`Some(eq?)` on `(e, u) = (T, F)`, `Some(¬eq?)` on `(F, T)`, `None` on
`(F, F)`, and the fatal panic on `(T, T)`. -/
theorem C3_euf_decide_table (e : EUF) (ml : Literal) (el : EUFLiteral)
    (h : e.to_euf_lit ml = some el) :
    (el.left = el.right → e.decide ml = DecideResult.ok (some el.is_equality)) ∧
    (el.left ≠ el.right →
      (Reaches e.equivs el.left el.right →
        ¬ UnequalDecl e.equivs e.inequivs el.left el.right →
        e.decide ml = DecideResult.ok (some el.is_equality)) ∧
      (¬ Reaches e.equivs el.left el.right →
        UnequalDecl e.equivs e.inequivs el.left el.right →
        e.decide ml = DecideResult.ok (some (!el.is_equality))) ∧
      (¬ Reaches e.equivs el.left el.right →
        ¬ UnequalDecl e.equivs e.inequivs el.left el.right →
        e.decide ml = DecideResult.ok none) ∧
      (Reaches e.equivs el.left el.right →
        UnequalDecl e.equivs e.inequivs el.left el.right →
        e.decide ml = DecideResult.fatal)) := by
  have hdec : e.decide ml =
      (if el.left = el.right then DecideResult.ok (some el.is_equality)
       else
         match el.is_equality, are_equal e.equivs el.left el.right,
             are_unequal e.equivs e.inequivs el.left el.right with
         | true, true, false => DecideResult.ok (some true)
         | true, false, true => DecideResult.ok (some false)
         | false, true, false => DecideResult.ok (some false)
         | false, false, true => DecideResult.ok (some true)
         | _, true, true => DecideResult.fatal
         | _, false, false => DecideResult.ok none) := by
    unfold EUF.decide
    rw [h]
  by_cases heq : el.left = el.right
  · refine ⟨fun _ => by rw [hdec, if_pos heq], fun hne => absurd heq hne⟩
  · rw [if_neg heq] at hdec
    refine ⟨fun h' => absurd h' heq, fun _ => ?_⟩
    refine ⟨?_, ?_, ?_, ?_⟩
    · intro hr hu
      have hae : are_equal e.equivs el.left el.right = true :=
        (are_equal_iff_reaches _ _ _).mpr hr
      have hau : are_unequal e.equivs e.inequivs el.left el.right = false := by
        cases hval : are_unequal e.equivs e.inequivs el.left el.right with
        | false => rfl
        | true => exact absurd ((are_unequal_iff _ _ _ _).mp hval).2 hu
      rw [hae, hau] at hdec
      rw [hdec]
      cases el.is_equality <;> rfl
    · intro hr hu
      have hae : are_equal e.equivs el.left el.right = false := by
        cases hval : are_equal e.equivs el.left el.right with
        | false => rfl
        | true => exact absurd ((are_equal_iff_reaches _ _ _).mp hval) hr
      have hau : are_unequal e.equivs e.inequivs el.left el.right = true :=
        (are_unequal_iff _ _ _ _).mpr ⟨heq, hu⟩
      rw [hae, hau] at hdec
      rw [hdec]
      cases el.is_equality <;> rfl
    · intro hr hu
      have hae : are_equal e.equivs el.left el.right = false := by
        cases hval : are_equal e.equivs el.left el.right with
        | false => rfl
        | true => exact absurd ((are_equal_iff_reaches _ _ _).mp hval) hr
      have hau : are_unequal e.equivs e.inequivs el.left el.right = false := by
        cases hval : are_unequal e.equivs e.inequivs el.left el.right with
        | false => rfl
        | true => exact absurd ((are_unequal_iff _ _ _ _).mp hval).2 hu
      rw [hae, hau] at hdec
      rw [hdec]
      cases el.is_equality <;> rfl
    · intro hr hu
      have hae : are_equal e.equivs el.left el.right = true :=
        (are_equal_iff_reaches _ _ _).mpr hr
      have hau : are_unequal e.equivs e.inequivs el.left el.right = true :=
        (are_unequal_iff _ _ _ _).mpr ⟨heq, hu⟩
      rw [hae, hau] at hdec
      rw [hdec]
      cases el.is_equality <;> rfl

/-- Witness for C3 at a concrete input: atom 1 bound to the trivial
equality `1 == 1`, decided true by the structural-equality row. -/
theorem C3_euf_decide_table_witness :
    EUF.decide (EUF.new [EUFLiteral.new (EUFTerm.Atom 1) (EUFTerm.Atom 1)]) lit1 =
      DecideResult.ok (some true) :=
  (C3_euf_decide_table (EUF.new [EUFLiteral.new (EUFTerm.Atom 1) (EUFTerm.Atom 1)])
    lit1 (EUFLiteral.new (EUFTerm.Atom 1) (EUFTerm.Atom 1)) rfl).1 rfl

/-- C4: `forget()` empties `E` and `D` while leaving the superterm index
and the literal binding unchanged; consequently `equal` coincides with
structural equality and `unequal` is everywhere false. -/
theorem C4_forget_postcondition (e : EUF) :
    e.forget.equivs = [] ∧ e.forget.inequivs = [] ∧
    e.forget.superterms = e.superterms ∧ e.forget.lits = e.lits ∧
    (∀ a b : EUFTerm,
      (are_equal e.forget.equivs a b = true ↔ a = b) ∧
      are_unequal e.forget.equivs e.forget.inequivs a b = false) := by
  refine ⟨rfl, rfl, rfl, rfl, ?_⟩
  intro a b
  constructor
  · constructor
    · intro h
      rw [are_equal_iff_reaches] at h
      show a = b
      induction h with
      | refl => rfl
      | tail _ hstep _ => cases hstep
    · intro h
      rw [h]
      exact are_equal_refl _ _
  · show are_unequal [] [] a b = false
    unfold are_unequal
    by_cases hab : a = b
    · rw [if_pos hab]
    · rw [if_neg hab]
      rfl

/-- C10: the literal binding is partial.  `decide` and `incorporate` are
defined exactly for atom ids between 1 and `lits.len()`; any larger id
makes the index lookup panic (modelled as the `fatal`/`none` outcome)
instead of returning a theory answer. -/
theorem C10_euf_binding_domain (e : EUF) (ml : Literal) :
    (e.lits.length < ml.get_id →
      e.to_euf_lit ml = none ∧ e.decide ml = DecideResult.fatal ∧
      e.incorporate ml = none) ∧
    (1 ≤ ml.get_id ∧ ml.get_id ≤ e.lits.length →
      (e.to_euf_lit ml).isSome = true) := by
  constructor
  · intro hlt
    have hid := ml.get_id_pos
    have hnone : e.lits.get? (ml.get_id - 1) = none := by
      rw [List.get?_eq_none]
      omega
    have h1 : e.to_euf_lit ml = none := by
      unfold EUF.to_euf_lit
      rw [hnone]
    refine ⟨h1, ?_, ?_⟩
    · unfold EUF.decide
      rw [h1]
    · unfold EUF.incorporate
      rw [h1]
  · rintro ⟨h1, h2⟩
    cases hget : e.lits.get? (ml.get_id - 1) with
    | some x =>
      unfold EUF.to_euf_lit
      rw [hget]
      rfl
    | none =>
      exfalso
      have := List.get?_eq_none.mp hget
      omega

/-- Witness for C10 at a concrete input: an empty binding list makes atom
1 out of bounds. -/
theorem C10_euf_binding_domain_witness :
    EUF.decide (EUF.new []) lit1 = DecideResult.fatal ∧
    EUF.incorporate (EUF.new []) lit1 = none :=
  ⟨((C10_euf_binding_domain (EUF.new []) lit1).1 (by decide)).2.1,
   ((C10_euf_binding_domain (EUF.new []) lit1).1 (by decide)).2.2⟩

theorem foldl_add_equiv_symm {st : Superterms} :
    ∀ (ls : List (EUFTerm × EUFTerm)) (acc : List (EUFTerm × EUFTerm)),
      SymmRel acc →
      SymmRel (ls.foldl (fun acc ab => add_equiv st acc ab.1 ab.2) acc) := by
  intro ls
  induction ls with
  | nil => exact fun acc h => h
  | cons ab ls ih =>
    intro acc h
    exact ih _ (add_equiv_symm h)

theorem infer_symm (st : Superterms) :
    ∀ (rel : List (EUFTerm × EUFTerm)), SymmRel rel →
      SymmRel (infer_implicit_equalities st rel) := by
  intro rel
  induction rel using infer_implicit_equalities.induct st with
  | case1 rel hnews =>
    intro h
    unfold infer_implicit_equalities
    rw [hnews]
    exact h
  | case2 rel n0 rest hnews ih =>
    intro h
    unfold infer_implicit_equalities
    rw [hnews]
    exact ih (foldl_add_equiv_symm _ _ h)

/-- The EUF states reachable from `EUF::new` by `incorporate` and
`forget` calls. -/
inductive EUFReachableState : EUF → Prop
  | new (lits : List EUFLiteral) : EUFReachableState (EUF.new lits)
  | incorporate {e e' : EUF} {ml : Literal} :
      EUFReachableState e → e.incorporate ml = some e' → EUFReachableState e'
  | forget {e : EUF} : EUFReachableState e → EUFReachableState e.forget

theorem euf_reachable_symm {e : EUF} (h : EUFReachableState e) :
    SymmRel e.equivs := by
  induction h with
  | new lits =>
    intro a b hab
    cases hab
  | incorporate hre hinc ih =>
    rename_i e e' ml
    unfold EUF.incorporate at hinc
    cases hlit : e.to_euf_lit ml with
    | none =>
      rw [hlit] at hinc
      cases hinc
    | some el =>
      rw [hlit] at hinc
      have hinc' : (if el.is_equality = true then
          (if el.left = el.right then some e
           else some { e with
             equivs := infer_implicit_equalities e.superterms
               (add_equiv e.superterms e.equivs el.left el.right) })
        else
          (if el.left = el.right then none
           else some { e with
             inequivs := e.inequivs ++ [(el.left, el.right)],
             equivs := infer_implicit_equalities e.superterms e.equivs })) =
          some e' := hinc
      by_cases hiseq : el.is_equality = true
      · rw [if_pos hiseq] at hinc'
        by_cases hlr : el.left = el.right
        · rw [if_pos hlr] at hinc'
          injection hinc' with hinc'
          rw [← hinc']
          exact ih
        · rw [if_neg hlr] at hinc'
          injection hinc' with hinc'
          rw [← hinc']
          exact infer_symm _ _ (add_equiv_symm ih)
      · rw [if_neg hiseq] at hinc'
        by_cases hlr : el.left = el.right
        · rw [if_pos hlr] at hinc'
          cases hinc'
        · rw [if_neg hlr] at hinc'
          injection hinc' with hinc'
          rw [← hinc']
          exact infer_symm _ _ ih
  | forget _ _ =>
    intro a b hab
    cases hab

/-- C5: in every EUF state reachable by `incorporate`/`forget` from
`EUF::new`, the neighbour map `E` is symmetric; consequently the relation
computed by `are_equal` is reflexive, symmetric, and transitive over all
terms. -/
theorem C5_equal_equivalence (e : EUF) (h : EUFReachableState e) :
    (∀ a b : EUFTerm, (a, b) ∈ e.equivs → (b, a) ∈ e.equivs) ∧
    (∀ t : EUFTerm, are_equal e.equivs t t = true) ∧
    (∀ a b : EUFTerm, are_equal e.equivs a b = true →
      are_equal e.equivs b a = true) ∧
    (∀ a b c : EUFTerm, are_equal e.equivs a b = true →
      are_equal e.equivs b c = true → are_equal e.equivs a c = true) := by
  have hsym := euf_reachable_symm h
  exact ⟨hsym, fun t => are_equal_refl _ t,
    fun a b hab => are_equal_symm hsym hab,
    fun a b c hab hbc => are_equal_trans hab hbc⟩

/-- Witness for C5 at a concrete reachable state: reflexivity of `equal`
at the freshly constructed empty theory. -/
theorem C5_equal_equivalence_witness :
    are_equal (EUF.new []).equivs (EUFTerm.Atom 1) (EUFTerm.Atom 1) = true :=
  (C5_equal_equivalence (EUF.new []) (EUFReachableState.new [])).2.1
    (EUFTerm.Atom 1)

end SatSpec
